import Mathlib

/-!
Verification of the `megaboom` BLE speaker CLI (src/megaboom.py).

The Python values the program manipulates (JSON configs, argparse strings,
scan results) are shallowly embedded:

* `PyVal` models a Python value: `None`, a string, a dict (insertion-ordered
  association list with string keys, as JSON objects and the program's own
  dicts always have string keys), or an opaque other value carrying only an
  identity tag and its truthiness. Python truthiness is `truthy`.
* Python `==` on such values ignores dict insertion order; it is modelled by
  `pyEq`. Real Python dicts never contain a duplicate key; `wfB` states that
  well-formedness for an embedded value.
* Dict primitives `dget`/`dset`/`dpop`/`dmem` model `d.get(k)`, `d[k] = v`
  (replace in place, else append), `d.pop(k, None)` and `k in d`.
-/

namespace Megaboom

inductive PyVal where
  | none
  | str (s : String)
  | other (tag : Nat) (tv : Bool)
  | dict (entries : List (String × PyVal))
deriving Repr

abbrev Entries := List (String × PyVal)

/-- Python truthiness: `None`, `""` and `{}` are falsy; an opaque other value
carries its own truthiness flag. -/
def truthy : PyVal → Bool
  | PyVal.none => false
  | PyVal.str s => !(s == "")
  | PyVal.other _ b => b
  | PyVal.dict d => !d.isEmpty

/-- Model of `d.get(k)`: the value at the first matching key, if any. -/
def dget : Entries → String → Option PyVal
  | [], _ => Option.none
  | (k, v) :: rest, key => if k = key then some v else dget rest key

/-- Model of `d[k] = v`: replace the value at an existing key in place,
otherwise append the new pair at the end (Python dict insertion order). -/
def dset : Entries → String → PyVal → Entries
  | [], key, v => [(key, v)]
  | (k, w) :: rest, key, v =>
    if k = key then (k, v) :: rest else (k, w) :: dset rest key v

/-- Model of `d.pop(k, None)`: remove the key. -/
def dpop : Entries → String → Entries
  | [], _ => []
  | (k, v) :: rest, key =>
    if k = key then dpop rest key else (k, v) :: dpop rest key

/-- Model of `k in d`. -/
def dmem (d : Entries) (key : String) : Bool := (dget d key).isSome

def truthyO : Option PyVal → Bool
  | some v => truthy v
  | Option.none => false

/-- Truthiness of an optional Python string (`None` and `""` are falsy). -/
def strTruthy : Option String → Bool
  | some s => !(s == "")
  | Option.none => false

/-- Model of `d.setdefault(k, v)`: insert only when the key is absent. -/
def setdefaultE (e : Entries) (k : String) (v : PyVal) : Entries :=
  if dmem e k then e else dset e k v

/-- Interpret an optional value as a dict, as `devices.get(label, {})` does
when all stored values are dicts, and as the non-dict guards in
`_migrate_cfg` do. -/
def asEntries : Option PyVal → Entries
  | some (PyVal.dict d) => d
  | _ => []

/-- Model of `cfg.get("default_device") if isinstance(..., str) else None`. -/
def strOrNone : Option PyVal → Option String
  | some (PyVal.str s) => some s
  | _ => Option.none

def optToVal : Option String → PyVal
  | some s => PyVal.str s
  | Option.none => PyVal.none

/-! ## Python `==` and well-formedness -/

mutual

/-- Python `==` on embedded values: dict comparison is key-based and ignores
insertion order (equal length plus every pair of the left dict found with an
equal value in the right dict, which on duplicate-free dicts is Python's
dict equality). -/
def pyEq : PyVal → PyVal → Bool
  | PyVal.none, PyVal.none => true
  | PyVal.str a, PyVal.str b => a == b
  | PyVal.other i a, PyVal.other j b => i == j && a == b
  | PyVal.dict a, PyVal.dict b => a.length == b.length && dsubEq a b
  | _, _ => false

/-- Every pair of `a` is found in `b` with a `pyEq`-equal value. -/
def dsubEq : Entries → Entries → Bool
  | [], _ => true
  | (k, v) :: rest, b =>
    (match dget b k with
     | some w => pyEq v w
     | Option.none => false)
    && dsubEq rest b

end

mutual

/-- The embedded value is representable as a real Python value: no dict
contains a duplicate key, recursively. -/
def wfB : PyVal → Bool
  | PyVal.dict d => wfEntries d
  | _ => true

def wfEntries : Entries → Bool
  | [] => true
  | (k, v) :: rest => !(dmem rest k) && wfB v && wfEntries rest

end

/-! ## `_migrate_cfg` (src/megaboom.py lines 52-92) -/

/-- The per-entry dict stored by the `for label, entry in devices_in.items()`
loop of `_migrate_cfg`: `ble_id` is copied when truthy, then `name_hint` when
truthy. -/
def cleanEntry (e : Entries) : Entries :=
  (match dget e "ble_id" with
   | some v => if truthy v then [("ble_id", v)] else []
   | Option.none => [])
  ++
  (match dget e "name_hint" with
   | some v => if truthy v then [("name_hint", v)] else []
   | Option.none => [])

/-- The `for label, entry in devices_in.items()` loop of `_migrate_cfg`:
non-dict entries are skipped, and an entry is stored (as `cleanEntry`)
exactly when its `ble_id` or `name_hint` is truthy. -/
def buildDevices : Entries → Entries → Entries
  | acc, [] => acc
  | acc, (lbl, entryV) :: rest =>
    match entryV with
    | PyVal.dict e =>
      if truthyO (dget e "ble_id") || truthyO (dget e "name_hint") then
        buildDevices (dset acc lbl (PyVal.dict (cleanEntry e))) rest
      else
        buildDevices acc rest
    | _ => buildDevices acc rest

/-- The legacy value merge of `_migrate_cfg` (lines 75-78): the truthy
top-level `ble_id`, then the truthy top-level `name_hint`, are added to the
entry without overwriting existing fields. -/
def legacyEntry (cfg entry0 : Entries) : Entries :=
  let entry1 :=
    if truthyO (dget cfg "ble_id") then
      setdefaultE entry0 "ble_id" ((dget cfg "ble_id").getD PyVal.none)
    else entry0
  if truthyO (dget cfg "name_hint") then
    setdefaultE entry1 "name_hint" ((dget cfg "name_hint").getD PyVal.none)
  else entry1

/-- The legacy flat-key fold of `_migrate_cfg` (lines 71-81): when `ble_id`
or `name_hint` is a top-level key, merge the truthy legacy values (without
overwriting, via `legacyEntry`) into the entry at
`default_device or "default"`, store it when non-empty and let the label
become the default when none was set. -/
def legacyFold (cfg devices0 : Entries) (dd0 : Option String) :
    Entries × Option String :=
  if dmem cfg "ble_id" || dmem cfg "name_hint" then
    let legacyLabel := if strTruthy dd0 then dd0.getD "" else "default"
    let entry2 := legacyEntry cfg (asEntries (dget devices0 legacyLabel))
    if entry2.isEmpty then (devices0, dd0)
    else (dset devices0 legacyLabel (PyVal.dict entry2),
          if strTruthy dd0 then dd0 else some legacyLabel)
  else (devices0, dd0)

/-- The default repair of `_migrate_cfg` (lines 83-86): a truthy default
naming an absent label is dropped, and a `None` default is refilled with the
first stored label (`next(iter(devices))`) when one exists. -/
def repairDefault (devices1 : Entries) (dd1 : Option String) : Option String :=
  let dd2 : Option String :=
    match dd1 with
    | some s => if !(s == "") && !(dmem devices1 s) then Option.none else some s
    | Option.none => Option.none
  if dd2.isNone && !devices1.isEmpty then
    some ((devices1.headD ("", PyVal.none)).1)
  else dd2

/-- The entry list of a value when it is a dict, else empty: this is the
`cfg = cfg if isinstance(cfg, dict) else {}` guard of `_migrate_cfg`. -/
def rawEntries : PyVal → Entries
  | PyVal.dict d => d
  | _ => []

/-- The `devices` map and `default_device` label of a config dict after the
device-entry loop and the legacy flat-key fold of `_migrate_cfg`. -/
def migLegacy (cfg : Entries) : Entries × Option String :=
  legacyFold cfg (buildDevices [] (asEntries (dget cfg "devices")))
    (strOrNone (dget cfg "default_device"))

/-- Shallow embedding of `_migrate_cfg` (src/megaboom.py lines 52-92),
composed of `buildDevices`, `legacyFold` (together `migLegacy`) and
`repairDefault`, then writing `devices` and `default_device` back and
popping the legacy flat keys. -/
def _migrate_cfg (raw : PyVal) : PyVal :=
  let cfg := rawEntries raw
  let p := migLegacy cfg
  let dd := repairDefault p.1 p.2
  PyVal.dict
    (dpop
      (dpop
        (dset (dset cfg "devices" (PyVal.dict p.1)) "default_device"
          (optToVal dd))
        "ble_id")
      "name_hint")

/-- The `devices` map of a config value. -/
def cfgDevices (v : PyVal) : Entries := asEntries (dget (rawEntries v) "devices")

/-- The stored `default_device` value of a config value. -/
def cfgDefault (v : PyVal) : Option PyVal := dget (rawEntries v) "default_device"

/-! ## MAC codec: `mac_to_bytes` (lines 18-22) -/

/-- ASCII whitespace as recognised by Python's `str.strip` and
`bytes.fromhex`. -/
def isPySpace (c : Char) : Bool :=
  c.toNat = 32 || c.toNat = 9 || c.toNat = 10 || c.toNat = 11 ||
    c.toNat = 12 || c.toNat = 13

/-- Model of `mac.replace(":", "").replace("-", "")`. -/
def sepStrip (l : List Char) : List Char :=
  l.filter (fun c => !(c = ':' || c = '-'))

/-- Model of `str.strip()` on a character list. -/
def stripEnds (l : List Char) : List Char :=
  ((l.dropWhile isPySpace).reverse.dropWhile isPySpace).reverse

/-- The value of one hex digit (codes 48-57 are `0`-`9`, 97-102 are `a`-`f`,
65-70 are `A`-`F`), case-insensitive like `bytes.fromhex`. -/
def hexDigit (c : Char) : Option Nat :=
  if 48 ≤ c.toNat ∧ c.toNat ≤ 57 then some (c.toNat - 48)
  else if 97 ≤ c.toNat ∧ c.toNat ≤ 102 then some (c.toNat - 87)
  else if 65 ≤ c.toNat ∧ c.toNat ≤ 70 then some (c.toNat - 55)
  else Option.none

/-- Decode consecutive pairs of hex digits into byte values; fails on a
non-hex digit or an odd count. -/
def fromhexPairs : List Char → Option (List Nat)
  | [] => some []
  | c1 :: c2 :: rest =>
    match hexDigit c1, hexDigit c2, fromhexPairs rest with
    | some hi, some lo, some bs => some ((16 * hi + lo) :: bs)
    | _, _, _ => Option.none
  | _ => Option.none

/-- Model of `bytes.fromhex`: ASCII whitespace is skipped, then hex digit
pairs are decoded. -/
def fromhex (l : List Char) : Option (List Nat) :=
  fromhexPairs (l.filter (fun c => !isPySpace c))

/-- Shallow embedding of `mac_to_bytes` (lines 18-22): drop `:`/`-`, strip
surrounding whitespace, require length 12, decode as hex. `Option.none`
models the raised `ValueError`. -/
def mac_to_bytes (s : String) : Option (List Nat) :=
  let m := stripEnds (sepStrip s.toList)
  if m.length ≠ 12 then Option.none else fromhex m

/-! ## `derive_label` (lines 133-142) -/

/-- A scan/CLI device as `derive_label` sees it: either a plain string (the
`power-id` path passes `args.ble_id`) or a rich BLE device object whose
`name` may be absent or empty and whose `address` attribute may be missing
(in which case `getattr(device, "address", "default")` yields `"default"`). -/
inductive BDevice where
  | strId (s : String)
  | rich (name : Option String) (address : Option String)

/-- Shallow embedding of `derive_label` (lines 133-142). -/
def derive_label (explicit_label name_hint : Option String)
    (device : BDevice) : String :=
  if strTruthy explicit_label then explicit_label.getD ""
  else if strTruthy name_hint then name_hint.getD ""
  else
    match device with
    | BDevice.strId s => s
    | BDevice.rich nm addr =>
      if strTruthy nm then nm.getD ""
      else
        match addr with
        | some a => a
        | Option.none => "default"

/-- First non-empty string among the candidates. -/
def firstNonEmpty : List (Option String) → Option String
  | [] => Option.none
  | o :: rest =>
    match o with
    | some s => if !(s == "") then some s else firstNonEmpty rest
    | Option.none => firstNonEmpty rest

/-- The amended spec reading of `deriveLabel`: the first non-empty candidate
among explicit label, name hint and the rich device's own name wins;
otherwise the plain-string device's string or the rich device's address
(whenever the attribute exists, even if empty); otherwise the literal
`"default"`. -/
def deriveLabelSpec (explicit_label name_hint : Option String)
    (device : BDevice) : String :=
  let ownName : Option String :=
    match device with
    | BDevice.rich nm _ => nm
    | BDevice.strId _ => Option.none
  match firstNonEmpty [explicit_label, name_hint, ownName] with
  | some s => s
  | Option.none =>
    match device with
    | BDevice.strId s => s
    | BDevice.rich _ (some a) => a
    | BDevice.rich _ Option.none => "default"

/-! ## `get_default_device` (lines 123-130) and the `power` resolution
(lines 328-341) -/

/-- Shallow embedding of `get_default_device` (lines 123-130): the pair
`(None, None)` is `(Option.none, Option.none)`. -/
def get_default_device (cfg : PyVal) : Option PyVal × Option PyVal :=
  let label := dget (rawEntries cfg) "default_device"
  match label with
  | some lv =>
    if truthy lv then
      let devs :=
        match dget (rawEntries cfg) "devices" with
        | some v => if truthy v then v else PyVal.dict []
        | Option.none => PyVal.dict []
      let device :=
        match devs, lv with
        | PyVal.dict d, PyVal.str s => dget d s
        | _, _ => Option.none
      match device with
      | some dv => if truthy dv then (some lv, some dv) else (Option.none, Option.none)
      | Option.none => (Option.none, Option.none)
    else (Option.none, Option.none)
  | Option.none => (Option.none, Option.none)

/-- Model of `.get(k)` on a Python value known to be a dict in every
reachable state (missing key gives `None`). -/
def entryGet (v : PyVal) (k : String) : PyVal :=
  match v with
  | PyVal.dict d => (dget d k).getD PyVal.none
  | _ => PyVal.none

/-- Python `a or b`. -/
def pyOr (a b : PyVal) : PyVal := if truthy a then a else b

def optStrVal : Option String → PyVal
  | some s => PyVal.str s
  | Option.none => PyVal.none

/-- Shallow embedding of the `power` command's identity resolution (lines
328-341): the returned value is the identity `send_power` will use (its
`ble_id` when truthy, else the name substring), and `Option.none` models the
`SystemExit` raised when nothing resolves. -/
def resolve_power_target (argBle argName : Option String) (cfg : PyVal) :
    Option PyVal :=
  let dentry := (get_default_device cfg).2
  let ble0 := optStrVal argBle
  let name0 := optStrVal argName
  let pair :=
    if !truthy ble0 && !truthy name0 &&
        (match dentry with | some e => truthy e | Option.none => false) then
      (pyOr (entryGet (dentry.getD PyVal.none) "ble_id") ble0,
       pyOr (entryGet (dentry.getD PyVal.none) "name_hint") name0)
    else (ble0, name0)
  if !truthy pair.1 && !truthy pair.2 then Option.none
  else some (if truthy pair.1 then pair.1 else pair.2)

/-- First truthy value in the list, if any. -/
def firstTruthy : List PyVal → Option PyVal
  | [] => Option.none
  | v :: rest => if truthy v then some v else firstTruthy rest

/-- The spec reading of the `power` resolution order: `--ble-id` flag, else
`--name` flag, else the stored default entry's `ble_id`, else its
`name_hint`. -/
def resolveSpec (argBle argName : Option String) (cfg : PyVal) : Option PyVal :=
  let e := ((get_default_device cfg).2).getD PyVal.none
  firstTruthy
    [optStrVal argBle, optStrVal argName, entryGet e "ble_id",
     entryGet e "name_hint"]

/-! ## `remember_device` (lines 109-120) -/

/-- The label `remember_device` stores under:
`label = label.strip() if label else "default"` (line 110). A non-empty
label is stripped of surrounding whitespace (even when that leaves it
empty); only a label empty before stripping becomes `"default"`. -/
def effLabel (label : String) : String :=
  if !(label == "") then String.mk (stripEnds label.toList) else "default"

/-- The new device entry `remember_device` stores (lines 113-115):
`{"ble_id": ble_id}` plus `name_hint` when truthy. -/
def remEntry (ble_id : String) (name_hint : Option String) : Entries :=
  ("ble_id", PyVal.str ble_id) ::
    (match name_hint with
     | some s => if !(s == "") then [("name_hint", PyVal.str s)] else []
     | Option.none => [])

/-- The in-memory config `remember_device` builds before saving
(lines 110-117): the entry is upserted under the effective label inside
`devices`, and the label becomes `default_device` when `set_default` is
given or no truthy default exists. -/
def remStore (cfg : Entries) (label ble_id : String)
    (name_hint : Option String) (set_default : Bool) : Entries :=
  let lbl := effLabel label
  let cfg1 := dset cfg "devices"
    (PyVal.dict (dset (asEntries (dget cfg "devices")) lbl
      (PyVal.dict (remEntry ble_id name_hint))))
  if set_default || !truthyO (dget cfg1 "default_device") then
    dset cfg1 "default_device" (PyVal.str lbl)
  else cfg1

/-- Shallow embedding of `remember_device` (lines 109-120): the returned
value is the config as persisted by `save_cfg`, i.e. `remStore` after the
defensive `_migrate_cfg` pass. The printing side effect is not modelled. -/
def remember_device (cfg : Entries) (label ble_id : String)
    (name_hint : Option String) (set_default : Bool) : PyVal :=
  _migrate_cfg (PyVal.dict (remStore cfg label ble_id name_hint set_default))

/-! ## Scan ranking: `cmd_scan`/`find_device` (lines 220-241) -/

/-- A scanned BLE device as the ranking sees it: its advertised name, its
address, and the signal strength obtained by `get_rssi` from the device, the
advertisement or the metadata (absent when none of them carries one). -/
structure ScanDev where
  name : Option String
  address : String
  rssi : Option Int
deriving DecidableEq, Repr

/-- ASCII lowercasing, modelling `str.lower()` on the ASCII names involved. -/
def asciiLower (c : Char) : Char :=
  if 'A' ≤ c ∧ c ≤ 'Z' then Char.ofNat (c.toNat + 32) else c

/-- Whether the needle occurs at the head of the haystack. -/
def leadsWith : List Char → List Char → Bool
  | [], _ => true
  | _ :: _, [] => false
  | a :: n, b :: h => a = b && leadsWith n h

/-- Whether the needle occurs anywhere in the haystack (Python `n in h`). -/
def hasSub (n : List Char) : List Char → Bool
  | [] => leadsWith n []
  | c :: t => leadsWith n (c :: t) || hasSub n t

/-- Model of `name_substring.lower() in d.name.lower()`. -/
def nameContainsCI (name sub : String) : Bool :=
  hasSub (sub.toList.map asciiLower) (name.toList.map asciiLower)

/-- The match filter of `cmd_scan`/`find_device`:
`d.name and name_substring.lower() in d.name.lower()`. -/
def nameMatch (sub : String) (d : ScanDev) : Bool :=
  match d.name with
  | some nm => !(nm == "") && nameContainsCI nm sub
  | Option.none => false

/-- The strict order on signal strengths induced by the sort key
`(x[2] is not None, x[2])`: an absent value is below every present one,
present values compare as integers. -/
def rssiKeyLt : Option Int → Option Int → Bool
  | Option.none, some _ => true
  | some a, some b => a < b
  | _, _ => false

/-- One insertion step of a stable descending insertion sort on the rssi
key: the new element is placed before the first strictly weaker element,
hence after every earlier element with an equal or stronger key. -/
def insertByRssi (a : ScanDev) : List ScanDev → List ScanDev
  | [] => [a]
  | b :: rest =>
    if rssiKeyLt b.rssi a.rssi then a :: b :: rest else b :: insertByRssi a rest

/-- Model of `matches.sort(key=lambda x: (x[2] is not None, x[2]),
reverse=True)`: Python's sort is stable, and with `reverse=True` elements
with equal keys keep their scan order while stronger keys move to the
front. -/
def sortByRssiDesc (l : List ScanDev) : List ScanDev :=
  l.foldl (fun acc a => insertByRssi a acc) []

/-- Shallow embedding of the selection in `find_device` (lines 234-241) and
`cmd_scan` (lines 220-226): filter by name, sort descending by signal, take
the first. `Option.none` models the raised `RuntimeError` on zero matches. -/
def find_device (sub : String) (found : List ScanDev) : Option ScanDev :=
  let ms := found.filter (nameMatch sub)
  if ms.isEmpty then Option.none
  else (sortByRssiDesc ms).head?

/-- The spec reading of the ranking: the first element of the match list
whose key no later element strictly exceeds (the strongest, earliest-seen
match). -/
def chooseStrongest : List ScanDev → Option ScanDev
  | [] => Option.none
  | a :: rest =>
    match chooseStrongest rest with
    | Option.none => some a
    | some b => if rssiKeyLt a.rssi b.rssi then some b else some a

/-! ## The `power-id` command flow (lines 308-325) -/

/-- Outcome of the awaited `send_power` call inside the `try` block. -/
inductive SendOutcome where
  | ok
  | deviceNotFound
  | otherError
deriving DecidableEq

/-- Shallow embedding of the `power-id` branch of `main` (lines 308-325)
from the point where `send_power` runs: on `BleakDeviceNotFoundError` the
error is printed and the handler returns; any other exception propagates;
only a successful write with `--remember` reaches `remember_device`. The
result is the persisted store (unchanged unless `remember_device` ran) and
whether `remember_device` was called. -/
def power_id_main (outcome : SendOutcome) (remember : Bool) (store : Entries)
    (ble_id : String) (remember_as : Option String) (set_default : Bool) :
    PyVal × Bool :=
  match outcome with
  | SendOutcome.deviceNotFound => (PyVal.dict store, false)
  | SendOutcome.otherError => (PyVal.dict store, false)
  | SendOutcome.ok =>
    if remember then
      (remember_device store (derive_label remember_as Option.none (BDevice.strId ble_id))
        ble_id Option.none set_default, true)
    else (PyVal.dict store, false)

/-! ## Proof-support predicates -/

/-- Every key of the device entry is `ble_id` or `name_hint` and every
stored value is truthy. -/
def entryFieldsOK (e : Entries) : Prop :=
  ∀ p ∈ e, (p.1 = "ble_id" ∨ p.1 = "name_hint") ∧ truthy p.2 = true

/-- Every stored device value is a non-empty dict whose fields are the
truthy `ble_id`/`name_hint` data. -/
def devicesOK (d : Entries) : Prop :=
  ∀ p ∈ d, ∃ e, p.2 = PyVal.dict e ∧ e ≠ [] ∧ entryFieldsOK e

/-- The invariant linking a stored `default_device` value to the stored
`devices` map: a `None` default means no devices, and a non-empty default
names a stored label. -/
def ddOKV (d : Entries) : PyVal → Prop
  | PyVal.none => d = []
  | PyVal.str s => s = "" ∨ dmem d s = true
  | _ => False

/-- One step of the running strongest-so-far fold used to characterise the
head of the descending stable sort. -/
def bestStep (o : Option ScanDev) (x : ScanDev) : Option ScanDev :=
  match o with
  | Option.none => some x
  | some b => if rssiKeyLt b.rssi x.rssi then some x else some b

/-- The nibble pairing underlying `fromhexPairs`, acting on the hex digit
values of the characters. -/
def pairNibbles : List (Option Nat) → Option (List Nat)
  | [] => some []
  | some hi :: some lo :: rest =>
    (match pairNibbles rest with
     | some bs => some ((16 * hi + lo) :: bs)
     | Option.none => Option.none)
  | _ => Option.none

/-! ## Dictionary lemmas -/

theorem dget_dset_self (d : Entries) (k : String) (v : PyVal) :
    dget (dset d k v) k = some v := by
  induction d with
  | nil => simp [dset, dget]
  | cons p rest ih =>
    obtain ⟨k0, w⟩ := p
    by_cases h : k0 = k
    · simp [dset, h, dget]
    · simp [dset, h, dget, ih]

theorem dget_dset_of_ne (d : Entries) {k k' : String} (v : PyVal)
    (h : k' ≠ k) : dget (dset d k v) k' = dget d k' := by
  induction d with
  | nil => simp [dset, dget, Ne.symm h]
  | cons p rest ih =>
    obtain ⟨k0, w⟩ := p
    by_cases h0 : k0 = k
    · subst h0
      simp [dset, dget, Ne.symm h]
    · simp [dset, h0, dget, ih]

theorem dmem_dset_self (d : Entries) (k : String) (v : PyVal) :
    dmem (dset d k v) k = true := by
  simp [dmem, dget_dset_self]

theorem dmem_dset_of_ne (d : Entries) {k k' : String} (v : PyVal)
    (h : k' ≠ k) : dmem (dset d k v) k' = dmem d k' := by
  simp [dmem, dget_dset_of_ne d v h]

theorem dget_dpop_self (d : Entries) (k : String) :
    dget (dpop d k) k = Option.none := by
  induction d with
  | nil => simp [dpop, dget]
  | cons p rest ih =>
    obtain ⟨k0, w⟩ := p
    by_cases h : k0 = k
    · simp [dpop, h, ih]
    · simp [dpop, h, dget, ih]

theorem dget_dpop_of_ne (d : Entries) {k k' : String} (h : k' ≠ k) :
    dget (dpop d k) k' = dget d k' := by
  induction d with
  | nil => simp [dpop]
  | cons p rest ih =>
    obtain ⟨k0, w⟩ := p
    by_cases h0 : k0 = k
    · subst h0
      simp [dpop, dget, Ne.symm h, ih]
    · simp [dpop, h0, dget, ih]

theorem dmem_dpop_self (d : Entries) (k : String) :
    dmem (dpop d k) k = false := by
  simp [dmem, dget_dpop_self]

theorem dmem_dpop_of_ne (d : Entries) {k k' : String} (h : k' ≠ k) :
    dmem (dpop d k) k' = dmem d k' := by
  simp [dmem, dget_dpop_of_ne d h]

theorem dpop_of_not_mem (d : Entries) (k : String) (h : dmem d k = false) :
    dpop d k = d := by
  induction d with
  | nil => simp [dpop]
  | cons p rest ih =>
    obtain ⟨k0, w⟩ := p
    by_cases h0 : k0 = k
    · subst h0
      simp [dmem, dget] at h
    · simp only [dmem, dget, h0, if_false] at h
      simp [dpop, h0, ih h]

theorem dset_of_dget_eq (d : Entries) (k : String) (v : PyVal)
    (h : dget d k = some v) : dset d k v = d := by
  induction d with
  | nil => simp [dget] at h
  | cons p rest ih =>
    obtain ⟨k0, w⟩ := p
    by_cases h0 : k0 = k
    · subst h0
      simp [dget] at h
      simp [dset, h]
    · simp [dget, h0] at h
      simp [dset, h0, ih h]

theorem length_dset_of_mem (d : Entries) (k : String) (v : PyVal)
    (h : dmem d k = true) : (dset d k v).length = d.length := by
  induction d with
  | nil => simp [dmem, dget] at h
  | cons p rest ih =>
    obtain ⟨k0, w⟩ := p
    by_cases h0 : k0 = k
    · simp [dset, h0]
    · simp [dmem, dget, h0] at h
      simp [dset, h0, ih h]

theorem mem_dset (d : Entries) (k : String) (v : PyVal) (p : String × PyVal)
    (h : p ∈ dset d k v) : p = (k, v) ∨ p ∈ d := by
  induction d with
  | nil =>
    simp [dset] at h
    exact Or.inl h
  | cons q rest ih =>
    obtain ⟨k0, w⟩ := q
    by_cases h0 : k0 = k
    · subst h0
      simp [dset] at h
      rcases h with h | h
      · exact Or.inl (by simp [h])
      · exact Or.inr (by simp [h])
    · simp [dset, h0] at h
      rcases h with h | h
      · exact Or.inr (by simp [h])
      · rcases ih h with h1 | h1
        · exact Or.inl h1
        · exact Or.inr (by simp [h1])

theorem dmem_of_mem (d : Entries) (p : String × PyVal) (h : p ∈ d) :
    dmem d p.1 = true := by
  induction d with
  | nil => simp at h
  | cons q rest ih =>
    obtain ⟨k0, w⟩ := q
    rcases List.mem_cons.mp h with h1 | h1
    · simp [dmem, dget, h1]
    · by_cases h0 : k0 = p.1
      · simp [dmem, dget, h0]
      · simpa [dmem, dget, h0] using ih h1

theorem dget_ne_nil (d : Entries) (k : String) (v : PyVal)
    (h : dget d k = some v) : d ≠ [] := by
  intro h0
  subst h0
  simp [dget] at h

theorem dset_append_of_not_mem (d : Entries) (k : String) (v : PyVal)
    (h : dmem d k = false) : dset d k v = d ++ [(k, v)] := by
  induction d with
  | nil => simp [dset]
  | cons p rest ih =>
    obtain ⟨k0, w⟩ := p
    by_cases h0 : k0 = k
    · subst h0
      simp [dmem, dget] at h
    · simp only [dmem, dget, h0, if_false] at h
      simp [dset, h0, ih h]

theorem dget_append (a b : Entries) (k : String) :
    dget (a ++ b) k = match dget a k with
      | some v => some v
      | Option.none => dget b k := by
  induction a with
  | nil => simp [dget]
  | cons p rest ih =>
    obtain ⟨k0, w⟩ := p
    by_cases h0 : k0 = k
    · simp [dget, h0]
    · simp [dget, h0, ih]

/-! ## Well-formedness lemmas -/

theorem wfEntries_cons (k : String) (v : PyVal) (rest : Entries) :
    wfEntries ((k, v) :: rest) =
      (!(dmem rest k) && wfB v && wfEntries rest) := rfl

theorem wf_of_wfEntries_cons {k : String} {v : PyVal} {rest : Entries}
    (h : wfEntries ((k, v) :: rest) = true) :
    dmem rest k = false ∧ wfB v = true ∧ wfEntries rest = true := by
  rw [wfEntries_cons] at h
  simp at h
  exact ⟨h.1.1, h.1.2, h.2⟩

theorem wfEntries_dset (d : Entries) (k : String) (v : PyVal)
    (hd : wfEntries d = true) (hv : wfB v = true) :
    wfEntries (dset d k v) = true := by
  induction d with
  | nil => simp [dset, wfEntries, dmem, dget, hv, wfB]
  | cons p rest ih =>
    obtain ⟨k0, w⟩ := p
    obtain ⟨h1, h2, h3⟩ := wf_of_wfEntries_cons hd
    by_cases h0 : k0 = k
    · subst h0
      simp [dset, wfEntries_cons, h1, hv, h3]
    · rw [dset]
      simp only [h0, if_false]
      rw [wfEntries_cons]
      simp [dmem_dset_of_ne rest v (fun hh => h0 hh), h1, h2, ih h3]

theorem wfEntries_dpop (d : Entries) (k : String)
    (hd : wfEntries d = true) : wfEntries (dpop d k) = true := by
  induction d with
  | nil => simpa [dpop] using hd
  | cons p rest ih =>
    obtain ⟨k0, w⟩ := p
    obtain ⟨h1, h2, h3⟩ := wf_of_wfEntries_cons hd
    by_cases h0 : k0 = k
    · simp [dpop, h0, ih h3]
    · rw [dpop]
      simp only [h0, if_false]
      rw [wfEntries_cons]
      simp [dmem_dpop_of_ne rest (fun hh => h0 hh), h1, h2, ih h3]

theorem dget_of_mem_wf (d : Entries) (p : String × PyVal)
    (hd : wfEntries d = true) (h : p ∈ d) : dget d p.1 = some p.2 := by
  induction d with
  | nil => simp at h
  | cons q rest ih =>
    obtain ⟨k0, w⟩ := q
    obtain ⟨h1, h2, h3⟩ := wf_of_wfEntries_cons hd
    rcases List.mem_cons.mp h with hm | hm
    · subst hm
      simp [dget]
    · by_cases h0 : k0 = p.1
      · subst h0
        have := dmem_of_mem rest p hm
        rw [this] at h1
        simp at h1
      · simp [dget, h0, ih h3 hm]

theorem wf_of_mem (d : Entries) (p : String × PyVal)
    (hd : wfEntries d = true) (h : p ∈ d) : wfB p.2 = true := by
  induction d with
  | nil => simp at h
  | cons q rest ih =>
    obtain ⟨k0, w⟩ := q
    obtain ⟨_, h2, h3⟩ := wf_of_wfEntries_cons hd
    rcases List.mem_cons.mp h with hm | hm
    · subst hm
      exact h2
    · exact ih h3 hm

theorem wf_of_dget (d : Entries) (k : String) (v : PyVal)
    (hd : wfEntries d = true) (h : dget d k = some v) : wfB v = true := by
  induction d with
  | nil => simp [dget] at h
  | cons q rest ih =>
    obtain ⟨k0, w⟩ := q
    obtain ⟨_, h2, h3⟩ := wf_of_wfEntries_cons hd
    by_cases h0 : k0 = k
    · simp [dget, h0] at h
      exact h ▸ h2
    · simp [dget, h0] at h
      exact ih h3 h

/-! ## `pyEq` lemmas -/

theorem dsubEq_intro (a b : Entries)
    (h : ∀ p ∈ a, ∃ w, dget b p.1 = some w ∧ pyEq p.2 w = true) :
    dsubEq a b = true := by
  induction a with
  | nil => simp [dsubEq]
  | cons p rest ih =>
    obtain ⟨k, v⟩ := p
    obtain ⟨w, hw, hpe⟩ := h (k, v) (by simp)
    rw [dsubEq]
    simp only [hw, hpe, Bool.true_and]
    exact ih (fun q hq => h q (by simp [hq]))

theorem pyEq_refl_aux :
    ∀ (n : Nat) (v : PyVal), sizeOf v ≤ n → wfB v = true → pyEq v v = true := by
  intro n
  induction n with
  | zero =>
    intro v hsz hwf
    cases v <;> simp at hsz
  | succ n ih =>
    intro v hsz hwf
    cases v with
    | none => rfl
    | str s => simp [pyEq]
    | other i b => simp [pyEq]
    | dict d =>
      rw [pyEq]
      simp only [Bool.and_eq_true, beq_self_eq_true, true_and]
      apply dsubEq_intro
      intro p hp
      refine ⟨p.2, ?_, ?_⟩
      · exact dget_of_mem_wf d p (by simpa [wfB] using hwf) hp
      · have hlt : sizeOf p < sizeOf d := List.sizeOf_lt_of_mem hp
        have hlt2 : sizeOf p.2 < sizeOf p := by
          obtain ⟨k, v⟩ := p
          simp
        have hsz2 : sizeOf p.2 ≤ n := by
          simp at hsz
          omega
        exact ih p.2 hsz2 (wf_of_mem d p (by simpa [wfB] using hwf) hp)

theorem pyEq_refl (v : PyVal) (h : wfB v = true) : pyEq v v = true :=
  pyEq_refl_aux (sizeOf v) v (Nat.le_refl _) h

theorem pyEq_dict_intro (a b : Entries) (hlen : a.length = b.length)
    (h : ∀ p ∈ a, ∃ w, dget b p.1 = some w ∧ pyEq p.2 w = true) :
    pyEq (PyVal.dict a) (PyVal.dict b) = true := by
  rw [pyEq]
  simp [hlen, dsubEq_intro a b h]


/-! ## Device-map lemmas -/

theorem mem_of_dget (d : Entries) (k : String) (v : PyVal)
    (h : dget d k = some v) : (k, v) ∈ d := by
  induction d with
  | nil => simp [dget] at h
  | cons p rest ih =>
    obtain ⟨k0, w⟩ := p
    by_cases h0 : k0 = k
    · subst h0
      simp [dget] at h
      simp [h]
    · simp [dget, h0] at h
      simp [ih h]

theorem dmem_append (a b : Entries) (k : String) :
    dmem (a ++ b) k = (dmem a k || dmem b k) := by
  rw [dmem, dget_append]
  cases h : dget a k <;> simp [dmem, h]

theorem cleanEntry_fieldsOK (e : Entries) : entryFieldsOK (cleanEntry e) := by
  intro p hp
  unfold cleanEntry at hp
  rcases List.mem_append.mp hp with h | h <;>
  · split at h
    · split at h
      · simp at h
        subst h
        simp_all
      · simp at h
    · simp at h

theorem fieldsOK_cond (e : Entries) (hf : entryFieldsOK e) (hne : e ≠ []) :
    (truthyO (dget e "ble_id") || truthyO (dget e "name_hint")) = true := by
  cases e with
  | nil => exact absurd rfl hne
  | cons p rest =>
    obtain ⟨k, v⟩ := p
    obtain ⟨hk, hv⟩ := hf (k, v) (by simp)
    rcases hk with hk | hk <;> subst hk
    · simp [dget, truthyO, hv]
    · have hh : dget (("name_hint", v) :: rest) "name_hint" = some v := by
        simp [dget]
      simp [hh, truthyO, hv]

theorem cleanEntry_ne_nil (e : Entries)
    (hc : (truthyO (dget e "ble_id") || truthyO (dget e "name_hint")) = true) :
    cleanEntry e ≠ [] := by
  intro h0
  unfold cleanEntry at h0
  rw [List.append_eq_nil] at h0
  obtain ⟨h1, h2⟩ := h0
  simp only [Bool.or_eq_true] at hc
  rcases hc with h | h
  · cases hb : dget e "ble_id" with
    | none => rw [hb] at h; simp [truthyO] at h
    | some v =>
      rw [hb] at h h1
      simp [truthyO] at h
      simp [h] at h1
  · cases hn : dget e "name_hint" with
    | none => rw [hn] at h; simp [truthyO] at h
    | some v =>
      rw [hn] at h h2
      simp [truthyO] at h
      simp [h] at h2

theorem devicesOK_dset (d : Entries) (k : String) (v : PyVal)
    (hd : devicesOK d) (hv : ∃ e, v = PyVal.dict e ∧ e ≠ [] ∧ entryFieldsOK e) :
    devicesOK (dset d k v) := by
  intro p hp
  rcases mem_dset d k v p hp with h | h
  · rw [h]
    exact hv
  · exact hd p h

theorem buildDevices_devicesOK (din : Entries) :
    ∀ acc : Entries, devicesOK acc → devicesOK (buildDevices acc din) := by
  induction din with
  | nil =>
    intro acc h
    exact h
  | cons p rest ih =>
    intro acc hacc
    obtain ⟨lbl, ev⟩ := p
    cases ev with
    | none => exact ih acc hacc
    | str s => exact ih acc hacc
    | other i b => exact ih acc hacc
    | dict e =>
      simp only [buildDevices]
      split
      · rename_i hc
        exact ih _ (devicesOK_dset acc lbl _ hacc
          ⟨cleanEntry e, rfl, cleanEntry_ne_nil e hc, cleanEntry_fieldsOK e⟩)
      · exact ih acc hacc

theorem buildDevices_of_wf :
    ∀ (din acc : Entries), devicesOK din → wfEntries din = true →
      (∀ p ∈ din, dmem acc p.1 = false) →
      buildDevices acc din =
        acc ++ din.map (fun p => (p.1, PyVal.dict (cleanEntry (rawEntries p.2)))) := by
  intro din
  induction din with
  | nil =>
    intro acc _ _ _
    simp [buildDevices]
  | cons p rest ih =>
    intro acc hOK hwf hdisj
    obtain ⟨lbl, ev⟩ := p
    obtain ⟨e, he, hne, hf⟩ := hOK (lbl, ev) (by simp)
    obtain ⟨h1, h2, h3⟩ := wf_of_wfEntries_cons hwf
    subst he
    simp only [buildDevices]
    rw [if_pos (fieldsOK_cond e hf hne)]
    have hlblNot : dmem acc lbl = false := hdisj (lbl, PyVal.dict e) (by simp)
    rw [dset_append_of_not_mem acc lbl _ hlblNot]
    rw [ih (acc ++ [(lbl, PyVal.dict (cleanEntry e))])
      (fun q hq => hOK q (List.mem_cons_of_mem _ hq)) h3 ?_]
    · simp [rawEntries]
    · intro q hq
      rw [dmem_append]
      have hq1 : dmem acc q.1 = false := hdisj q (List.mem_cons_of_mem _ hq)
      have hq2 : lbl ≠ q.1 := by
        intro hql
        have hh := dmem_of_mem rest q hq
        rw [← hql] at hh
        rw [hh] at h1
        exact Bool.true_eq_false.mp h1
      rw [hq1]
      simp [dmem, dget, hq2]

theorem setdefaultE_fieldsOK (e : Entries) (k : String) (v : PyVal)
    (hf : entryFieldsOK e) (hk : k = "ble_id" ∨ k = "name_hint")
    (hv : truthy v = true) : entryFieldsOK (setdefaultE e k v) := by
  unfold setdefaultE
  split
  · exact hf
  · intro p hp
    rcases mem_dset e k v p hp with h | h
    · rw [h]
      exact ⟨hk, hv⟩
    · exact hf p h

theorem dget_setdefaultE (e : Entries) (k q : String) (v w : PyVal)
    (h : dget e q = some w) : dget (setdefaultE e k v) q = some w := by
  unfold setdefaultE
  split
  · exact h
  · rename_i hmem
    by_cases hq : q = k
    · subst hq
      rw [dmem, h] at hmem
      simp at hmem
    · rw [dget_dset_of_ne e v hq]
      exact h

theorem wfEntries_setdefaultE (e : Entries) (k : String) (v : PyVal)
    (he : wfEntries e = true) (hv : wfB v = true) :
    wfEntries (setdefaultE e k v) = true := by
  unfold setdefaultE
  split
  · exact he
  · exact wfEntries_dset e k v he hv

theorem asEntries_dget_fieldsOK (devs : Entries) (hd : devicesOK devs)
    (l : String) : entryFieldsOK (asEntries (dget devs l)) := by
  cases h : dget devs l with
  | none =>
    intro p hp
    simp [asEntries] at hp
  | some v =>
    obtain ⟨e, he, _, hf⟩ := hd (l, v) (mem_of_dget devs l v h)
    simp only at he
    subst he
    exact hf

theorem truthy_getD_of_truthyO (o : Option PyVal) (h : truthyO o = true) :
    truthy (o.getD PyVal.none) = true := by
  cases o with
  | none => simp [truthyO] at h
  | some v => exact h

theorem legacyEntry_fieldsOK (cfg entry0 : Entries)
    (hf : entryFieldsOK entry0) : entryFieldsOK (legacyEntry cfg entry0) := by
  simp only [legacyEntry]
  have hf1 : entryFieldsOK
      (if truthyO (dget cfg "ble_id") = true then
        setdefaultE entry0 "ble_id" ((dget cfg "ble_id").getD PyVal.none)
      else entry0) := by
    split
    · rename_i hb
      exact setdefaultE_fieldsOK entry0 "ble_id" _ hf (Or.inl rfl)
        (truthy_getD_of_truthyO _ hb)
    · exact hf
  split
  · rename_i hn
    exact setdefaultE_fieldsOK _ "name_hint" _ hf1 (Or.inr rfl)
      (truthy_getD_of_truthyO _ hn)
  · exact hf1

theorem legacyEntry_dget (cfg entry0 : Entries) (q : String) (w : PyVal)
    (h : dget entry0 q = some w) : dget (legacyEntry cfg entry0) q = some w := by
  simp only [legacyEntry]
  have h1 : dget
      (if truthyO (dget cfg "ble_id") = true then
        setdefaultE entry0 "ble_id" ((dget cfg "ble_id").getD PyVal.none)
      else entry0) q = some w := by
    split
    · exact dget_setdefaultE entry0 "ble_id" q _ w h
    · exact h
  split
  · exact dget_setdefaultE _ "name_hint" q _ w h1
  · exact h1

theorem legacyEntry_wf (cfg entry0 : Entries) (he : wfEntries entry0 = true)
    (hcfg : wfEntries cfg = true) : wfEntries (legacyEntry cfg entry0) = true := by
  simp only [legacyEntry]
  have hv1 : ∀ k : String, wfB ((dget cfg k).getD PyVal.none) = true := by
    intro k
    cases h : dget cfg k with
    | none => rfl
    | some v => exact wf_of_dget cfg k v hcfg h
  have h1 : wfEntries
      (if truthyO (dget cfg "ble_id") = true then
        setdefaultE entry0 "ble_id" ((dget cfg "ble_id").getD PyVal.none)
      else entry0) = true := by
    split
    · exact wfEntries_setdefaultE entry0 "ble_id" _ he (hv1 "ble_id")
    · exact he
  split
  · exact wfEntries_setdefaultE _ "name_hint" _ h1 (hv1 "name_hint")
  · exact h1

theorem legacyFold_devicesOK (cfg devs : Entries) (dd : Option String)
    (hd : devicesOK devs) : devicesOK (legacyFold cfg devs dd).1 := by
  simp only [legacyFold]
  split
  · split <;> split
    · exact hd
    · rename_i hne
      apply devicesOK_dset devs _ _ hd
      refine ⟨legacyEntry cfg (asEntries (dget devs _)), rfl, ?_, ?_⟩
      · intro h0
        rw [h0] at hne
        simp at hne
      · exact legacyEntry_fieldsOK cfg _ (asEntries_dget_fieldsOK devs hd _)
    · exact hd
    · rename_i hne
      apply devicesOK_dset devs _ _ hd
      refine ⟨legacyEntry cfg (asEntries (dget devs _)), rfl, ?_, ?_⟩
      · intro h0
        rw [h0] at hne
        simp at hne
      · exact legacyEntry_fieldsOK cfg _ (asEntries_dget_fieldsOK devs hd _)
  · exact hd

theorem repairDefault_ddOK (devs : Entries) (dd : Option String) :
    ddOKV devs (optToVal (repairDefault devs dd)) := by
  cases dd with
  | none =>
    cases devs with
    | nil => simp [repairDefault, optToVal, ddOKV]
    | cons p rest => simp [repairDefault, optToVal, ddOKV, dmem, dget]
  | some s =>
    by_cases hs : s = ""
    · subst hs
      simp [repairDefault, optToVal, ddOKV]
    · by_cases hm : dmem devs s = true
      · simp [repairDefault, hs, hm, optToVal, ddOKV]
      · rw [Bool.not_eq_true] at hm
        cases devs with
        | nil => simp [repairDefault, hs, hm, optToVal, ddOKV]
        | cons p rest =>
          have hcond : (!(s == "") && !(dmem (p :: rest) s)) = true := by
            simp [hs, hm]
          simp only [repairDefault, hcond, if_true]
          simp [optToVal, ddOKV, dmem, dget]


/-! ## Well-formedness through migration -/

theorem wfEntries_single (k : String) (v : PyVal) (hv : wfB v = true) :
    wfEntries [(k, v)] = true := by
  simp [wfEntries, dmem, dget, hv]

theorem wf_rawEntries (raw : PyVal) (h : wfB raw = true) :
    wfEntries (rawEntries raw) = true := by
  cases raw <;> simp_all [rawEntries, wfB, wfEntries]

theorem wf_asEntries_dget (devs : Entries) (l : String)
    (hd : wfEntries devs = true) :
    wfEntries (asEntries (dget devs l)) = true := by
  cases h : dget devs l with
  | none => rfl
  | some v =>
    have hv := wf_of_dget devs l v hd h
    cases v with
    | dict d => simpa [asEntries, wfB] using hv
    | none => rfl
    | str s => rfl
    | other i b => rfl

theorem wfEntries_cleanEntry (e : Entries) (he : wfEntries e = true) :
    wfEntries (cleanEntry e) = true := by
  unfold cleanEntry
  cases hb : dget e "ble_id" with
  | none =>
    cases hn : dget e "name_hint" with
    | none => simp [wfEntries]
    | some w =>
      have hw := wf_of_dget e _ w he hn
      by_cases htw : truthy w = true <;> simp [htw, wfEntries, dmem, dget, hw]
  | some v =>
    have hv := wf_of_dget e _ v he hb
    cases hn : dget e "name_hint" with
    | none =>
      by_cases htv : truthy v = true <;> simp [htv, wfEntries, dmem, dget, hv]
    | some w =>
      have hw := wf_of_dget e _ w he hn
      by_cases htv : truthy v = true <;> by_cases htw : truthy w = true <;>
        simp [htv, htw, wfEntries, dmem, dget, hv, hw]

theorem buildDevices_wf (din : Entries) :
    ∀ acc : Entries, wfEntries din = true → wfEntries acc = true →
      wfEntries (buildDevices acc din) = true := by
  induction din with
  | nil =>
    intro acc _ h
    exact h
  | cons p rest ih =>
    intro acc hwf hacc
    obtain ⟨lbl, ev⟩ := p
    obtain ⟨_, h2, h3⟩ := wf_of_wfEntries_cons hwf
    cases ev with
    | none => exact ih acc h3 hacc
    | str s => exact ih acc h3 hacc
    | other i b => exact ih acc h3 hacc
    | dict e =>
      simp only [buildDevices]
      split
      · refine ih _ h3 (wfEntries_dset acc lbl _ hacc ?_)
        have he : wfEntries e = true := by simpa [wfB] using h2
        simpa [wfB] using wfEntries_cleanEntry e he
      · exact ih acc h3 hacc

theorem legacyFold_wf (cfg devs : Entries) (dd : Option String)
    (hcfg : wfEntries cfg = true) (hdevs : wfEntries devs = true) :
    wfEntries (legacyFold cfg devs dd).1 = true := by
  simp only [legacyFold]
  split
  · split <;> split
    · exact hdevs
    · apply wfEntries_dset devs _ _ hdevs
      simp only [wfB]
      exact legacyEntry_wf cfg _ (wf_asEntries_dget devs _ hdevs) hcfg
    · exact hdevs
    · apply wfEntries_dset devs _ _ hdevs
      simp only [wfB]
      exact legacyEntry_wf cfg _ (wf_asEntries_dget devs _ hdevs) hcfg
  · exact hdevs

theorem wf_optToVal (o : Option String) : wfB (optToVal o) = true := by
  cases o <;> rfl

theorem migrate_wf (raw : PyVal) (h : wfB raw = true) :
    wfB (_migrate_cfg raw) = true := by
  simp only [_migrate_cfg, wfB]
  have hcfg := wf_rawEntries raw h
  apply wfEntries_dpop
  apply wfEntries_dpop
  apply wfEntries_dset
  · apply wfEntries_dset _ _ _ hcfg
    simp only [wfB, migLegacy]
    exact legacyFold_wf _ _ _ hcfg
      (buildDevices_wf _ [] (wf_asEntries_dget _ _ hcfg) rfl)
  · exact wf_optToVal _

/-! ## The shape of migrated configs -/

theorem migrate_devices_eq (raw : PyVal) :
    dget (rawEntries (_migrate_cfg raw)) "devices" =
      some (PyVal.dict (migLegacy (rawEntries raw)).1) := by
  simp only [_migrate_cfg, rawEntries]
  rw [dget_dpop_of_ne _ (by decide), dget_dpop_of_ne _ (by decide),
    dget_dset_of_ne _ _ (by decide), dget_dset_self]

theorem migrate_default_eq (raw : PyVal) :
    dget (rawEntries (_migrate_cfg raw)) "default_device" =
      some (optToVal (repairDefault (migLegacy (rawEntries raw)).1
        (migLegacy (rawEntries raw)).2)) := by
  simp only [_migrate_cfg, rawEntries]
  rw [dget_dpop_of_ne _ (by decide), dget_dpop_of_ne _ (by decide),
    dget_dset_self]

theorem migrate_not_legacy (raw : PyVal) :
    dmem (rawEntries (_migrate_cfg raw)) "ble_id" = false ∧
    dmem (rawEntries (_migrate_cfg raw)) "name_hint" = false := by
  simp only [_migrate_cfg, rawEntries]
  constructor
  · rw [dmem_dpop_of_ne _ (by decide)]
    exact dmem_dpop_self _ _
  · exact dmem_dpop_self _ _

theorem legacyFold_skip (cfg devs : Entries) (dd : Option String)
    (hb : dmem cfg "ble_id" = false) (hn : dmem cfg "name_hint" = false) :
    legacyFold cfg devs dd = (devs, dd) := by
  simp [legacyFold, hb, hn]

theorem migLegacy_devicesOK (cfg : Entries) : devicesOK (migLegacy cfg).1 := by
  rw [migLegacy]
  apply legacyFold_devicesOK
  exact buildDevices_devicesOK _ [] (fun p hp => absurd hp (List.not_mem_nil p))

/-! ## Entry shapes and the idempotence fixpoint -/

theorem wf_head_ne (k : String) (v : PyVal) (rest : Entries)
    (p : String × PyVal) (hwf : wfEntries ((k, v) :: rest) = true)
    (hp : p ∈ rest) : k ≠ p.1 := by
  obtain ⟨h1, _, _⟩ := wf_of_wfEntries_cons hwf
  intro h
  have hh := dmem_of_mem rest p hp
  rw [← h] at hh
  rw [hh] at h1
  exact Bool.true_eq_false.mp h1

theorem entry_shape (e : Entries) (hf : entryFieldsOK e)
    (hwf : wfEntries e = true) (hne : e ≠ []) :
    (∃ v, e = [("ble_id", v)]) ∨ (∃ v, e = [("name_hint", v)]) ∨
    (∃ v w, e = [("ble_id", v), ("name_hint", w)]) ∨
    (∃ v w, e = [("name_hint", v), ("ble_id", w)]) := by
  cases e with
  | nil => exact absurd rfl hne
  | cons p rest =>
    obtain ⟨k1, v1⟩ := p
    obtain ⟨hk1, _⟩ := hf (k1, v1) (by simp)
    cases rest with
    | nil =>
      rcases hk1 with h | h <;> subst h
      · exact Or.inl ⟨v1, rfl⟩
      · exact Or.inr (Or.inl ⟨v1, rfl⟩)
    | cons q rest2 =>
      obtain ⟨k2, v2⟩ := q
      obtain ⟨hk2, _⟩ := hf (k2, v2) (by simp)
      have hne12 : k1 ≠ k2 := wf_head_ne k1 v1 _ (k2, v2) hwf (by simp)
      cases rest2 with
      | nil =>
        rcases hk1 with h1 | h1 <;> rcases hk2 with h2 | h2 <;>
          subst h1 <;> subst h2
        · exact absurd rfl hne12
        · exact Or.inr (Or.inr (Or.inl ⟨v1, v2, rfl⟩))
        · exact Or.inr (Or.inr (Or.inr ⟨v1, v2, rfl⟩))
        · exact absurd rfl hne12
      | cons r rest3 =>
        exfalso
        obtain ⟨k3, v3⟩ := r
        obtain ⟨hk3, _⟩ := hf (k3, v3) (by simp)
        have h13 : k1 ≠ k3 := wf_head_ne k1 v1 _ (k3, v3) hwf (by simp)
        obtain ⟨_, _, hwf2⟩ := wf_of_wfEntries_cons hwf
        have h23 : k2 ≠ k3 := wf_head_ne k2 v2 _ (k3, v3) hwf2 (by simp)
        rcases hk1 with h1 | h1 <;> rcases hk2 with h2 | h2 <;>
          rcases hk3 with h3 | h3 <;> subst h1 <;> subst h2 <;> subst h3 <;>
          first
          | exact hne12 rfl
          | exact h13 rfl
          | exact h23 rfl

theorem entry_clean_pyEq (e : Entries) (hf : entryFieldsOK e)
    (hwf : wfEntries e = true) (hne : e ≠ []) :
    pyEq (PyVal.dict (cleanEntry e)) (PyVal.dict e) = true := by
  rcases entry_shape e hf hwf hne with ⟨v, h⟩ | ⟨v, h⟩ | ⟨v, w, h⟩ | ⟨v, w, h⟩ <;>
    subst h
  · have hv : truthy v = true := (hf ("ble_id", v) (by simp)).2
    have hce : cleanEntry [("ble_id", v)] = [("ble_id", v)] := by
      simp [cleanEntry, dget, hv]
    rw [hce]
    exact pyEq_refl _ (by simpa [wfB] using hwf)
  · have hv : truthy v = true := (hf ("name_hint", v) (by simp)).2
    have hce : cleanEntry [("name_hint", v)] = [("name_hint", v)] := by
      simp [cleanEntry, dget, hv]
    rw [hce]
    exact pyEq_refl _ (by simpa [wfB] using hwf)
  · have hv : truthy v = true := (hf ("ble_id", v) (by simp)).2
    have hw : truthy w = true := (hf ("name_hint", w) (by simp)).2
    have hce : cleanEntry [("ble_id", v), ("name_hint", w)] =
        [("ble_id", v), ("name_hint", w)] := by
      simp [cleanEntry, dget, hv, hw]
    rw [hce]
    exact pyEq_refl _ (by simpa [wfB] using hwf)
  · have hv : truthy v = true := (hf ("name_hint", v) (by simp)).2
    have hw : truthy w = true := (hf ("ble_id", w) (by simp)).2
    have hce : cleanEntry [("name_hint", v), ("ble_id", w)] =
        [("ble_id", w), ("name_hint", v)] := by
      simp [cleanEntry, dget, hv, hw]
    rw [hce]
    obtain ⟨_, hwv, hwf2⟩ := wf_of_wfEntries_cons hwf
    obtain ⟨_, hww, _⟩ := wf_of_wfEntries_cons hwf2
    apply pyEq_dict_intro _ _ rfl
    intro p hp
    rcases List.mem_cons.mp hp with h | h
    · subst h
      exact ⟨w, by simp [dget], pyEq_refl w hww⟩
    · simp at h
      subst h
      exact ⟨v, by simp [dget], pyEq_refl v hwv⟩

theorem pyEq_dset_value (C : Entries) (k : String) (a b : PyVal)
    (hwf : wfEntries C = true) (hget : dget C k = some a)
    (hab : pyEq b a = true) :
    pyEq (PyVal.dict (dset C k b)) (PyVal.dict C) = true := by
  apply pyEq_dict_intro
  · exact length_dset_of_mem C k b (by simp [dmem, hget])
  · intro p hp
    rcases mem_dset C k b p hp with h | h
    · refine ⟨a, ?_, ?_⟩
      · rw [h]
        exact hget
      · rw [h]
        exact hab
    · exact ⟨p.2, dget_of_mem_wf C p hwf h, pyEq_refl p.2 (wf_of_mem C p hwf h)⟩

theorem dmem_map_keys (D : Entries) (f : String × PyVal → PyVal) (s : String) :
    dmem (D.map (fun p => (p.1, f p))) s = dmem D s := by
  induction D with
  | nil => rfl
  | cons p rest ih =>
    obtain ⟨k, v⟩ := p
    by_cases h : k = s
    · simp [dmem, dget, h]
    · simpa [dmem, dget, h] using ih

theorem migrate_fix (C : Entries) (hwf : wfEntries C = true)
    (D : Entries) (hD : dget C "devices" = some (PyVal.dict D))
    (hOK : devicesOK D) (ddv : PyVal)
    (hdd : dget C "default_device" = some ddv) (hddOK : ddOKV D ddv)
    (hb : dmem C "ble_id" = false) (hn : dmem C "name_hint" = false) :
    pyEq (_migrate_cfg (PyVal.dict C)) (PyVal.dict C) = true := by
  have hwfD : wfEntries D = true := by
    simpa [wfB] using wf_of_dget C "devices" _ hwf hD
  have hbuild : buildDevices [] D =
      D.map (fun p => (p.1, PyVal.dict (cleanEntry (rawEntries p.2)))) := by
    simpa using buildDevices_of_wf D [] hOK hwfD (fun p _ => rfl)
  have hpe : pyEq
      (PyVal.dict (D.map (fun p => (p.1, PyVal.dict (cleanEntry (rawEntries p.2))))))
      (PyVal.dict D) = true := by
    apply pyEq_dict_intro
    · simp
    · intro p hp
      obtain ⟨q, hq, hqe⟩ := List.mem_map.mp hp
      obtain ⟨e, he, hene, hef⟩ := hOK q hq
      have hwe : wfEntries e = true := by
        have := wf_of_mem D q hwfD hq
        rw [he] at this
        simpa [wfB] using this
      refine ⟨q.2, ?_, ?_⟩
      · rw [← hqe]
        exact dget_of_mem_wf D q hwfD hq
      · rw [← hqe, he]
        simpa [rawEntries] using entry_clean_pyEq e hef hwe hene
  have hml : migLegacy C = (buildDevices [] D, strOrNone (some ddv)) := by
    rw [migLegacy, hD, hdd]
    have ha : asEntries (some (PyVal.dict D)) = D := rfl
    rw [ha]
    exact legacyFold_skip C _ _ hb hn
  have hrep : optToVal (repairDefault
      (D.map (fun p => (p.1, PyVal.dict (cleanEntry (rawEntries p.2)))))
      (strOrNone (some ddv))) = ddv := by
    cases ddv with
    | none =>
      have hDnil : D = [] := hddOK
      subst hDnil
      simp [strOrNone, repairDefault, optToVal]
    | str s =>
      have hs : s = "" ∨ dmem D s = true := hddOK
      rcases hs with hs | hs
      · subst hs
        simp [strOrNone, repairDefault, optToVal]
      · have hmem : dmem
            (D.map (fun p => (p.1, PyVal.dict (cleanEntry (rawEntries p.2))))) s
            = true := by
          rw [dmem_map_keys]
          exact hs
        simp [strOrNone, repairDefault, hmem, optToVal]
    | other i b => exact (hddOK : False).elim
    | dict d => exact (hddOK : False).elim
  simp only [_migrate_cfg]
  rw [show rawEntries (PyVal.dict C) = C from rfl]
  rw [hml]
  simp only
  rw [hbuild, hrep]
  have h1 : dget (dset C "devices"
      (PyVal.dict (D.map (fun p => (p.1, PyVal.dict (cleanEntry (rawEntries p.2)))))))
      "default_device" = some ddv := by
    rw [dget_dset_of_ne _ _ (by decide)]
    exact hdd
  rw [dset_of_dget_eq _ _ _ h1]
  have h2 : dmem (dset C "devices"
      (PyVal.dict (D.map (fun p => (p.1, PyVal.dict (cleanEntry (rawEntries p.2)))))))
      "ble_id" = false := by
    rw [dmem_dset_of_ne _ _ (by decide)]
    exact hb
  rw [dpop_of_not_mem _ _ h2]
  have h3 : dmem (dset C "devices"
      (PyVal.dict (D.map (fun p => (p.1, PyVal.dict (cleanEntry (rawEntries p.2)))))))
      "name_hint" = false := by
    rw [dmem_dset_of_ne _ _ (by decide)]
    exact hn
  rw [dpop_of_not_mem _ _ h3]
  exact pyEq_dset_value C "devices" (PyVal.dict D) _ hwf hD hpe


/-! ## Claims C1-C3: migration -/

/-- C1 (amended): for every input value, `_migrate_cfg` returns a config in
which every stored device entry has at least one of `ble_id`/`name_hint`
set; a `default_device` set to a non-empty string is a key present in
`devices`; a `default_device` stored as `None` only occurs with an empty
`devices` map (so a dangling non-empty default is replaced by an existing
label whenever `devices` is non-empty); and with an empty `devices` map the
stored default is `None` or the preserved empty string. (The original
claim fails only for the empty-string label, see `C1_counterexample`.) -/
theorem C1_migrate_invariants (x : PyVal) :
    (∀ p ∈ cfgDevices (_migrate_cfg x), ∃ e, p.2 = PyVal.dict e ∧
      (dmem e "ble_id" = true ∨ dmem e "name_hint" = true)) ∧
    (∀ s, cfgDefault (_migrate_cfg x) = some (PyVal.str s) → s ≠ "" →
      dmem (cfgDevices (_migrate_cfg x)) s = true) ∧
    (cfgDefault (_migrate_cfg x) = some PyVal.none →
      cfgDevices (_migrate_cfg x) = []) ∧
    (cfgDevices (_migrate_cfg x) = [] →
      cfgDefault (_migrate_cfg x) = some PyVal.none ∨
      cfgDefault (_migrate_cfg x) = some (PyVal.str "")) := by
  have hdev := migrate_devices_eq x
  have hdd := migrate_default_eq x
  have hdevs : cfgDevices (_migrate_cfg x) = (migLegacy (rawEntries x)).1 := by
    rw [cfgDevices, hdev]
    rfl
  have hdef : cfgDefault (_migrate_cfg x) =
      some (optToVal (repairDefault (migLegacy (rawEntries x)).1
        (migLegacy (rawEntries x)).2)) := by
    rw [cfgDefault, hdd]
  have hOK := migLegacy_devicesOK (rawEntries x)
  have hddOK := repairDefault_ddOK (migLegacy (rawEntries x)).1
    (migLegacy (rawEntries x)).2
  refine ⟨?_, ?_, ?_, ?_⟩
  · intro p hp
    rw [hdevs] at hp
    obtain ⟨e, he, hene, hef⟩ := hOK p hp
    refine ⟨e, he, ?_⟩
    cases e with
    | nil => exact absurd rfl hene
    | cons q r =>
      obtain ⟨hk, _⟩ := hef q (by simp)
      have hm := dmem_of_mem (q :: r) q (by simp)
      rcases hk with hk | hk
      · rw [hk] at hm
        exact Or.inl hm
      · rw [hk] at hm
        exact Or.inr hm
  · intro s hs hne
    rw [hdef] at hs
    have hval : optToVal (repairDefault (migLegacy (rawEntries x)).1
        (migLegacy (rawEntries x)).2) = PyVal.str s := by
      exact Option.some.inj hs
    cases hrd : repairDefault (migLegacy (rawEntries x)).1
        (migLegacy (rawEntries x)).2 with
    | none =>
      rw [hrd] at hval
      exact absurd hval (by simp [optToVal])
    | some t =>
      rw [hrd] at hval hddOK
      have hts : t = s := by
        simpa [optToVal] using hval
      subst hts
      have hor : t = "" ∨ dmem (migLegacy (rawEntries x)).1 t = true := hddOK
      rcases hor with h | h
      · exact absurd h hne
      · rw [hdevs]
        exact h
  · intro hs
    rw [hdef] at hs
    have hval : optToVal (repairDefault (migLegacy (rawEntries x)).1
        (migLegacy (rawEntries x)).2) = PyVal.none := Option.some.inj hs
    cases hrd : repairDefault (migLegacy (rawEntries x)).1
        (migLegacy (rawEntries x)).2 with
    | some t =>
      rw [hrd] at hval
      exact absurd hval (by simp [optToVal])
    | none =>
      rw [hrd] at hddOK
      rw [hdevs]
      exact hddOK
  · intro hs
    rw [hdevs] at hs
    rw [hdef]
    cases hrd : repairDefault (migLegacy (rawEntries x)).1
        (migLegacy (rawEntries x)).2 with
    | none => exact Or.inl (by simp [optToVal])
    | some t =>
      rw [hrd] at hddOK
      have hor : t = "" ∨ dmem (migLegacy (rawEntries x)).1 t = true := hddOK
      rcases hor with h | h
      · subst h
        exact Or.inr (by simp [optToVal])
      · rw [hs] at h
        simp [dmem, dget] at h

/-- Witness for C1: a store with a dangling non-empty default over a
non-empty devices map; the theorem's hypotheses are discharged at it. -/
theorem C1_migrate_invariants_witness :
    cfgDefault (_migrate_cfg (PyVal.dict [("default_device", PyVal.str "gone"),
      ("devices", PyVal.dict [("a", PyVal.dict [("ble_id", PyVal.str "X")])])])) =
      some (PyVal.str "a") ∧
    dmem (cfgDevices (_migrate_cfg (PyVal.dict [("default_device", PyVal.str "gone"),
      ("devices", PyVal.dict [("a", PyVal.dict [("ble_id", PyVal.str "X")])])]))) "a" =
      true := by
  constructor
  · rfl
  · exact (C1_migrate_invariants (PyVal.dict [("default_device", PyVal.str "gone"),
      ("devices", PyVal.dict [("a", PyVal.dict [("ble_id", PyVal.str "X")])])])).2.1
      "a" rfl (by decide)

/-- C1 counterexample: on the input
`{"default_device": "", "devices": {"a": {"ble_id": "X"}}}` migration keeps
`default_device` set to the label `""`, which is not a key of the non-empty
`devices` map — refuting both "default_device, if set, is a key present in
devices" and "a default_device naming a label absent from devices is
replaced by some existing label when devices is non-empty". -/
theorem C1_counterexample :
    cfgDefault (_migrate_cfg (PyVal.dict [("default_device", PyVal.str ""),
      ("devices", PyVal.dict [("a", PyVal.dict [("ble_id", PyVal.str "X")])])])) =
      some (PyVal.str "") ∧
    dmem (cfgDevices (_migrate_cfg (PyVal.dict [("default_device", PyVal.str ""),
      ("devices", PyVal.dict [("a", PyVal.dict [("ble_id", PyVal.str "X")])])]))) "" =
      false ∧
    (cfgDevices (_migrate_cfg (PyVal.dict [("default_device", PyVal.str ""),
      ("devices", PyVal.dict [("a", PyVal.dict [("ble_id", PyVal.str "X")])])]))).isEmpty =
      false :=
  ⟨rfl, by decide, by decide⟩

/-- C2: migration is idempotent under Python equality: for every Python
representable input (no dict has a duplicate key), migrating twice equals
(`==`, order-insensitive dict comparison) migrating once. This covers the
empty mapping, `null`-like roots and legacy flat-key shapes. -/
theorem C2_migrate_idempotent (x : PyVal) (hwf : wfB x = true) :
    pyEq (_migrate_cfg (_migrate_cfg x)) (_migrate_cfg x) = true := by
  have hwf2 := migrate_wf x hwf
  have hdev := migrate_devices_eq x
  have hdd := migrate_default_eq x
  have hnl := migrate_not_legacy x
  obtain ⟨C, hC⟩ : ∃ C, _migrate_cfg x = PyVal.dict C := ⟨_, rfl⟩
  rw [hC] at hwf2 hdev hdd hnl ⊢
  rw [show rawEntries (PyVal.dict C) = C from rfl] at hdev hdd hnl
  exact migrate_fix C (by simpa [wfB] using hwf2) _ hdev
    (migLegacy_devicesOK _) _ hdd (repairDefault_ddOK _ _) hnl.1 hnl.2

/-- Witness for C2 at a legacy flat-key store whose stored entry gains its
legacy `ble_id` after its `name_hint` (the very case where the two sides
differ as lists but agree as Python dicts). -/
theorem C2_migrate_idempotent_witness :
    wfB (PyVal.dict [("ble_id", PyVal.str "AA"), ("devices", PyVal.dict
      [("default", PyVal.dict [("name_hint", PyVal.str "M")])])]) = true ∧
    pyEq
      (_migrate_cfg (_migrate_cfg (PyVal.dict [("ble_id", PyVal.str "AA"),
        ("devices", PyVal.dict
          [("default", PyVal.dict [("name_hint", PyVal.str "M")])])])))
      (_migrate_cfg (PyVal.dict [("ble_id", PyVal.str "AA"),
        ("devices", PyVal.dict
          [("default", PyVal.dict [("name_hint", PyVal.str "M")])])])) = true :=
  ⟨by decide, C2_migrate_idempotent _ (by decide)⟩

/-- C3: on the legacy input `{"ble_id": "AA:BB", "default_device": null}`
migration produces (as a Python dict, `==`) exactly
`{"devices": {"default": {"ble_id": "AA:BB"}}, "default_device": "default"}`. -/
theorem C3_migrate_example :
    pyEq
      (_migrate_cfg (PyVal.dict [("ble_id", PyVal.str "AA:BB"),
        ("default_device", PyVal.none)]))
      (PyVal.dict [("devices", PyVal.dict
        [("default", PyVal.dict [("ble_id", PyVal.str "AA:BB")])]),
        ("default_device", PyVal.str "default")]) = true := by
  decide


/-! ## Claim C4: power-command identity resolution -/

theorem gdd_snd_truthy (cfg : PyVal) (e : PyVal)
    (h : (get_default_device cfg).2 = some e) : truthy e = true := by
  simp only [get_default_device] at h
  split at h
  · split at h
    · split at h
      · split at h
        · rename_i htd
          simp at h
          subst h
          exact htd
        · simp at h
      · simp at h
    · simp at h
  · simp at h

/-- C4: the power command resolves the identity it uses in exactly the
precedence `--ble-id` flag, else `--name` flag, else the stored default
entry's `ble_id`, else its `name_hint` (all under Python truthiness), and it
fails (`SystemExit`, modelled `Option.none`) if and only if none of the four
is truthy. -/
theorem C4_power_resolution (argBle argName : Option String) (cfg : PyVal) :
    resolve_power_target argBle argName cfg = resolveSpec argBle argName cfg ∧
    (resolve_power_target argBle argName cfg = Option.none ↔
      (truthy (optStrVal argBle) = false ∧ truthy (optStrVal argName) = false ∧
       truthy (entryGet (((get_default_device cfg).2).getD PyVal.none)
         "ble_id") = false ∧
       truthy (entryGet (((get_default_device cfg).2).getD PyVal.none)
         "name_hint") = false)) := by
  cases hde : (get_default_device cfg).2 with
  | none =>
    have h0 : truthy PyVal.none = false := rfl
    by_cases hb : truthy (optStrVal argBle) = true <;>
      by_cases hn : truthy (optStrVal argName) = true <;>
        simp [resolve_power_target, resolveSpec, firstTruthy, pyOr, entryGet,
          hde, hb, hn, h0]
  | some e =>
    have hte : truthy e = true := gdd_snd_truthy cfg e hde
    by_cases hb : truthy (optStrVal argBle) = true <;>
      by_cases hn : truthy (optStrVal argName) = true <;>
        by_cases htb : truthy (entryGet e "ble_id") = true <;>
          by_cases htn : truthy (entryGet e "name_hint") = true <;>
            simp [resolve_power_target, resolveSpec, firstTruthy, pyOr,
              hde, hte, hb, hn, htb, htn]

/-! ## Claim C6: derive_label -/

/-- C6 (amended): `derive_label` equals the amended precedence chain: the
first non-empty candidate among explicit label, name hint and the rich
device's own name wins; otherwise a plain-string device yields its string
and a rich device its address attribute whenever present (even empty);
otherwise the literal `"default"`. (The original "an explicit label always
wins" fails for the empty-string label, see `C6_counterexample`.) -/
theorem C6_derive_label (el nh : Option String) (d : BDevice) :
    derive_label el nh d = deriveLabelSpec el nh d := by
  cases d with
  | strId s =>
    cases el <;> cases nh <;>
      simp only [derive_label, deriveLabelSpec, firstNonEmpty, strTruthy] <;>
      (try split_ifs) <;> simp_all
  | rich nm addr =>
    cases el <;> cases nh <;> cases nm <;> cases addr <;>
      simp only [derive_label, deriveLabelSpec, firstNonEmpty, strTruthy] <;>
      (try split_ifs) <;> simp_all

/-- C6 counterexample: with an explicit (but empty) label provided and a
richer name available, the empty explicit label does not win — the device
name is returned, refuting "an explicit label always wins". -/
theorem C6_counterexample :
    derive_label (some "") Option.none (BDevice.rich (some "Nm") (some "ad")) =
      "Nm" ∧ "Nm" ≠ "" :=
  ⟨rfl, by decide⟩

/-! ## Claim C10: power-id remembers only on success -/

/-- C10: in the `power-id` command the store is modified (and
`remember_device` called) exactly when the connect-and-write succeeds and
`--remember` was given; in particular on `BleakDeviceNotFoundError` the
handler returns with the store untouched and `remember_device` not called,
and any other failure propagates before the remember step. -/
theorem C10_power_id_store (o : SendOutcome) (remember : Bool)
    (store : Entries) (ble_id : String) (remember_as : Option String)
    (set_default : Bool) :
    power_id_main o remember store ble_id remember_as set_default =
      (if o = SendOutcome.ok ∧ remember = true then
        (remember_device store
          (derive_label remember_as Option.none (BDevice.strId ble_id))
          ble_id Option.none set_default, true)
      else (PyVal.dict store, false)) := by
  cases o <;> cases remember <;> simp [power_id_main]


/-! ## Claim C7: MAC codec -/

theorem hexDigit_not_space (c : Char) (h : (hexDigit c).isSome = true) :
    isPySpace c = false := by
  have hb : 48 ≤ c.toNat := by
    unfold hexDigit at h
    split_ifs at h with h1 h2 h3
    · omega
    · omega
    · omega
    · simp at h
  simp [isPySpace]
  omega

theorem dropWhile_eq_self_of_all (p : Char → Bool) (l : List Char)
    (h : ∀ c ∈ l, p c = false) : l.dropWhile p = l := by
  cases l with
  | nil => rfl
  | cons c t => simp [List.dropWhile_cons, h c (by simp)]

theorem stripEnds_eq_self (l : List Char)
    (h : ∀ c ∈ l, isPySpace c = false) : stripEnds l = l := by
  unfold stripEnds
  rw [dropWhile_eq_self_of_all _ l h]
  rw [dropWhile_eq_self_of_all _ l.reverse
    (fun c hc => h c (List.mem_reverse.mp hc))]
  exact List.reverse_reverse l

theorem filter_not_space_eq_self (l : List Char)
    (h : ∀ c ∈ l, isPySpace c = false) :
    l.filter (fun c => !isPySpace c) = l := by
  apply List.filter_eq_self.mpr
  intro a ha
  simp [h a ha]

theorem fromhexPairs_eq : ∀ l : List Char,
    fromhexPairs l = pairNibbles (l.map hexDigit)
  | [] => rfl
  | [c] => by
    cases h : hexDigit c <;> simp [fromhexPairs, pairNibbles, h]
  | c1 :: c2 :: rest => by
    have ih := fromhexPairs_eq rest
    cases h1 : hexDigit c1 <;> cases h2 : hexDigit c2 <;>
      cases hr : pairNibbles (rest.map hexDigit) <;>
        simp [fromhexPairs, pairNibbles, h1, h2, ih, hr]

theorem pairNibbles_len : ∀ (os : List (Option Nat)) (k : Nat),
    (∀ o ∈ os, o.isSome = true) → os.length = 2 * k →
    ∃ bs, pairNibbles os = some bs ∧ bs.length = k
  | [], k, _, hl => ⟨[], rfl, by simp at hl ⊢; omega⟩
  | [o], k, _, hl => by
    simp at hl
    omega
  | o1 :: o2 :: rest, k, hs, hl => by
    obtain ⟨v1, hv1⟩ := Option.isSome_iff_exists.mp (hs o1 (by simp))
    obtain ⟨v2, hv2⟩ := Option.isSome_iff_exists.mp (hs o2 (by simp))
    have hk : rest.length = 2 * (k - 1) := by
      simp at hl
      omega
    obtain ⟨bs, hbs, hblen⟩ := pairNibbles_len rest (k - 1)
      (fun o ho => hs o (by simp [ho])) hk
    subst hv1
    subst hv2
    refine ⟨(16 * v1 + v2) :: bs, ?_, ?_⟩
    · simp [pairNibbles, hbs]
    · simp at hl
      simp [hblen]
      omega

/-- C7 (amended): any two spellings of the same 12-hex-digit MAC address
(arbitrary `:`/`-` separators, any case — formalised as equal hex digit
sequences after separator stripping) parse to the same six bytes; and any
string whose length after stripping separators and surrounding whitespace is
not 12 fails. (The original claim, with the length taken directly after
separator stripping, fails for surrounding whitespace: see
`C7_counterexample`.) -/
theorem C7_mac_codec :
    (∀ s1 s2 : String,
      (sepStrip s1.toList).map hexDigit = (sepStrip s2.toList).map hexDigit →
      (sepStrip s1.toList).length = 12 →
      (∀ c ∈ sepStrip s1.toList, (hexDigit c).isSome = true) →
      mac_to_bytes s1 = mac_to_bytes s2 ∧
      ∃ bs, mac_to_bytes s1 = some bs ∧ bs.length = 6) ∧
    (∀ s : String, (stripEnds (sepStrip s.toList)).length ≠ 12 →
      mac_to_bytes s = Option.none) := by
  constructor
  · intro s1 s2 hmap hlen hhex
    have hhex2 : ∀ c ∈ sepStrip s2.toList, (hexDigit c).isSome = true := by
      intro c hc
      have hmm : hexDigit c ∈ (sepStrip s2.toList).map hexDigit :=
        List.mem_map_of_mem _ hc
      rw [← hmap] at hmm
      obtain ⟨c1, hc1, he⟩ := List.mem_map.mp hmm
      rw [← he]
      exact hhex c1 hc1
    have hlen2 : (sepStrip s2.toList).length = 12 := by
      have h := congrArg List.length hmap
      simp only [List.length_map] at h
      omega
    have hsp1 : ∀ c ∈ sepStrip s1.toList, isPySpace c = false :=
      fun c hc => hexDigit_not_space c (hhex c hc)
    have hsp2 : ∀ c ∈ sepStrip s2.toList, isPySpace c = false :=
      fun c hc => hexDigit_not_space c (hhex2 c hc)
    have hm1 : mac_to_bytes s1 =
        pairNibbles ((sepStrip s1.toList).map hexDigit) := by
      simp only [mac_to_bytes]
      rw [stripEnds_eq_self _ hsp1]
      rw [if_neg (by simp only [ne_eq, not_not]; exact hlen)]
      simp only [fromhex]
      rw [filter_not_space_eq_self _ hsp1]
      exact fromhexPairs_eq _
    have hm2 : mac_to_bytes s2 =
        pairNibbles ((sepStrip s2.toList).map hexDigit) := by
      simp only [mac_to_bytes]
      rw [stripEnds_eq_self _ hsp2]
      rw [if_neg (by simp only [ne_eq, not_not]; exact hlen2)]
      simp only [fromhex]
      rw [filter_not_space_eq_self _ hsp2]
      exact fromhexPairs_eq _
    constructor
    · rw [hm1, hm2, hmap]
    · rw [hm1]
      apply pairNibbles_len _ 6 ?_ ?_
      · intro o ho
        obtain ⟨c, hc, he⟩ := List.mem_map.mp ho
        rw [← he]
        exact hhex c hc
      · simp only [List.length_map]
        omega
  · intro s h
    simp only [mac_to_bytes]
    rw [if_pos h]

/-- Witness for C7: the spellings `aa:bb:cc:dd:ee:ff` and
`AA-BB-CC-DD-EE-FF` of one address parse to the same six bytes. -/
theorem C7_mac_codec_witness :
    ((sepStrip "aa:bb:cc:dd:ee:ff".toList).map hexDigit =
      (sepStrip "AA-BB-CC-DD-EE-FF".toList).map hexDigit) ∧
    (sepStrip "aa:bb:cc:dd:ee:ff".toList).length = 12 ∧
    (∀ c ∈ sepStrip "aa:bb:cc:dd:ee:ff".toList, (hexDigit c).isSome = true) ∧
    mac_to_bytes "aa:bb:cc:dd:ee:ff" = mac_to_bytes "AA-BB-CC-DD-EE-FF" ∧
    ∃ bs, mac_to_bytes "aa:bb:cc:dd:ee:ff" = some bs ∧ bs.length = 6 := by
  have h := C7_mac_codec.1 "aa:bb:cc:dd:ee:ff" "AA-BB-CC-DD-EE-FF"
    (by decide) (by decide) (by decide)
  exact ⟨by decide, by decide, by decide, h.1, h.2⟩

/-- C7 counterexample: `"AABBCCDDEEFF "` has length 13 after stripping the
`:`/`-` separators (the trailing space is not a separator), yet
`mac_to_bytes` succeeds because `str.strip()` removes the space before the
length check — refuting "for any string whose length after stripping
separators is not 12, parse fails". -/
theorem C7_counterexample :
    (sepStrip "AABBCCDDEEFF ".toList).length = 13 ∧
    mac_to_bytes "AABBCCDDEEFF " = some [170, 187, 204, 221, 238, 255] := by
  constructor
  · decide
  · decide


/-! ## Claim C5: scan ranking -/

theorem rssiKeyLt_irrefl (a : Option Int) : rssiKeyLt a a = false := by
  cases a <;> simp [rssiKeyLt]

theorem rssiKeyLt_asymm (a b : Option Int) (h : rssiKeyLt a b = true) :
    rssiKeyLt b a = false := by
  cases a <;> cases b <;> simp [rssiKeyLt] at h ⊢ <;> omega

theorem rssiKeyLt_trans (b x c : Option Int) (h1 : rssiKeyLt b x = true)
    (h2 : rssiKeyLt x c = true) : rssiKeyLt b c = true := by
  cases b <;> cases x <;> cases c <;> simp [rssiKeyLt] at h1 h2 ⊢ <;> omega

theorem rssiKeyLt_negtrans (b x c : Option Int) (h1 : rssiKeyLt b x = false)
    (h2 : rssiKeyLt x c = false) : rssiKeyLt b c = false := by
  cases b <;> cases x <;> cases c <;> simp [rssiKeyLt] at h1 h2 ⊢ <;> omega

theorem head_insertByRssi (a : ScanDev) (s : List ScanDev) :
    (insertByRssi a s).head? = some (match s.head? with
      | Option.none => a
      | some b => if rssiKeyLt b.rssi a.rssi then a else b) := by
  cases s with
  | nil => rfl
  | cons b rest =>
    simp only [insertByRssi, List.head?_cons]
    split <;> rename_i h <;> simp [h]

theorem head_foldl_insert (l : List ScanDev) :
    ∀ acc : List ScanDev,
      (l.foldl (fun s a => insertByRssi a s) acc).head? =
        l.foldl bestStep acc.head? := by
  induction l with
  | nil => intro acc; rfl
  | cons a rest ih =>
    intro acc
    simp only [List.foldl_cons]
    rw [ih (insertByRssi a acc)]
    congr 1
    rw [head_insertByRssi]
    cases h : acc.head? with
    | none => rfl
    | some b =>
      simp only [bestStep]
      split <;> rfl

theorem foldl_bestStep_some (l : List ScanDev) :
    ∀ b : ScanDev, l.foldl bestStep (some b) =
      some (match chooseStrongest l with
        | Option.none => b
        | some c => if rssiKeyLt b.rssi c.rssi then c else b) := by
  induction l with
  | nil => intro b; rfl
  | cons x rest ih =>
    intro b
    have hstep : bestStep (some b) x =
        if rssiKeyLt b.rssi x.rssi then some x else some b := rfl
    simp only [List.foldl_cons, hstep, chooseStrongest]
    by_cases hbx : rssiKeyLt b.rssi x.rssi = true
    · rw [if_pos hbx, ih x]
      cases hc : chooseStrongest rest with
      | none => simp [hbx]
      | some c =>
        by_cases hxc : rssiKeyLt x.rssi c.rssi = true
        · have hbc := rssiKeyLt_trans _ _ _ hbx hxc
          simp [hxc, hbc]
        · simp [hxc, hbx]
    · rw [if_neg hbx, ih b]
      cases hc : chooseStrongest rest with
      | none => simp [hbx]
      | some c =>
        by_cases hxc : rssiKeyLt x.rssi c.rssi = true
        · simp [hxc]
        · have hbc := rssiKeyLt_negtrans b.rssi x.rssi c.rssi
            (by simpa using hbx) (by simpa using hxc)
          simp [hxc, hbx, hbc]

theorem chooseStrongest_cons_none (a : ScanDev) (rest : List ScanDev)
    (hc : chooseStrongest rest = Option.none) :
    chooseStrongest (a :: rest) = some a := by
  simp only [chooseStrongest, hc]

theorem chooseStrongest_cons_some (a : ScanDev) (rest : List ScanDev)
    (b : ScanDev) (hc : chooseStrongest rest = some b) :
    chooseStrongest (a :: rest) =
      (if rssiKeyLt a.rssi b.rssi = true then some b else some a) := by
  simp only [chooseStrongest, hc]

theorem foldl_bestStep_none (l : List ScanDev) :
    l.foldl bestStep Option.none = chooseStrongest l := by
  cases l with
  | nil => rfl
  | cons x rest =>
    simp only [List.foldl_cons]
    rw [show bestStep Option.none x = some x from rfl]
    rw [foldl_bestStep_some rest x]
    cases hc : chooseStrongest rest with
    | none => rw [chooseStrongest_cons_none x rest hc]
    | some c =>
      rw [chooseStrongest_cons_some x rest c hc]
      show (some (if rssiKeyLt x.rssi c.rssi = true then c else x) : Option ScanDev) =
        if rssiKeyLt x.rssi c.rssi = true then some c else some x
      split <;> rfl

theorem find_device_eq (sub : String) (found : List ScanDev) :
    find_device sub found = chooseStrongest (found.filter (nameMatch sub)) := by
  simp only [find_device]
  cases h : found.filter (nameMatch sub) with
  | nil => rfl
  | cons m rest =>
    have hs : (sortByRssiDesc (m :: rest)).head? = chooseStrongest (m :: rest) := by
      rw [sortByRssiDesc, head_foldl_insert (m :: rest) []]
      exact foldl_bestStep_none _
    simp [hs]

theorem chooseStrongest_eq_none : ∀ l : List ScanDev,
    chooseStrongest l = Option.none → l = [] := by
  intro l
  cases l with
  | nil => intro _; rfl
  | cons a rest =>
    intro h
    cases hc : chooseStrongest rest with
    | none =>
      rw [chooseStrongest_cons_none a rest hc] at h
      simp at h
    | some b =>
      rw [chooseStrongest_cons_some a rest b hc] at h
      split at h <;> simp at h

theorem chooseStrongest_mem : ∀ (l : List ScanDev) (r : ScanDev),
    chooseStrongest l = some r → r ∈ l := by
  intro l
  induction l with
  | nil =>
    intro r h
    simp [chooseStrongest] at h
  | cons a rest ih =>
    intro r h
    cases hc : chooseStrongest rest with
    | none =>
      rw [chooseStrongest_cons_none a rest hc] at h
      simp at h
      subst h
      exact List.mem_cons_self a rest
    | some b =>
      rw [chooseStrongest_cons_some a rest b hc] at h
      split at h <;> simp at h <;> subst h
      · exact List.mem_cons_of_mem a (ih b hc)
      · exact List.mem_cons_self a rest

theorem chooseStrongest_max : ∀ (l : List ScanDev) (r : ScanDev),
    chooseStrongest l = some r → ∀ m ∈ l, rssiKeyLt r.rssi m.rssi = false := by
  intro l
  induction l with
  | nil =>
    intro r h
    simp [chooseStrongest] at h
  | cons a rest ih =>
    intro r h m hm
    cases hc : chooseStrongest rest with
    | none =>
      rw [chooseStrongest_cons_none a rest hc] at h
      simp at h
      subst h
      have hrest := chooseStrongest_eq_none rest hc
      subst hrest
      simp at hm
      subst hm
      exact rssiKeyLt_irrefl _
    | some b =>
      rw [chooseStrongest_cons_some a rest b hc] at h
      split at h
      · rename_i hab
        simp at h
        subst h
        rcases List.mem_cons.mp hm with h1 | h1
        · subst h1
          exact rssiKeyLt_asymm _ _ hab
        · exact ih b hc m h1
      · rename_i hab
        simp at h
        subst h
        rcases List.mem_cons.mp hm with h1 | h1
        · subst h1
          exact rssiKeyLt_irrefl _
        · exact rssiKeyLt_negtrans _ _ _ (by simpa using hab) (ih b hc m h1)

theorem chooseStrongest_first : ∀ (l : List ScanDev) (r : ScanDev),
    chooseStrongest l = some r →
    ∃ pre suf, l = pre ++ r :: suf ∧
      ∀ p ∈ pre, rssiKeyLt p.rssi r.rssi = true := by
  intro l
  induction l with
  | nil =>
    intro r h
    simp [chooseStrongest] at h
  | cons a rest ih =>
    intro r h
    cases hc : chooseStrongest rest with
    | none =>
      rw [chooseStrongest_cons_none a rest hc] at h
      simp at h
      subst h
      exact ⟨[], rest, rfl, by simp⟩
    | some b =>
      rw [chooseStrongest_cons_some a rest b hc] at h
      split at h
      · rename_i hab
        simp at h
        subst h
        obtain ⟨pre, suf, hsplit, hpre⟩ := ih b hc
        refine ⟨a :: pre, suf, by simp [hsplit], ?_⟩
        intro p hp
        rcases List.mem_cons.mp hp with h1 | h1
        · subst h1
          exact hab
        · exact hpre p h1
      · simp at h
        subst h
        exact ⟨[], rest, rfl, by simp⟩

/-- C5: the scan ranking filters devices whose advertised name contains the
substring case-insensitively, and the chosen device is exactly the
strongest-signal match with every present signal ranking above every absent
one and ties broken by scan order: the choice equals `chooseStrongest` of
the filtered list, which is a maximal element of it preceded only by
strictly weaker matches. In particular, for match signal strengths
`[None, -70, -40, -70]` in scan order the `-40` device is chosen, and for
`[None, None]` the first is chosen. -/
theorem C5_scan_ranking :
    (∀ (sub : String) (found : List ScanDev),
      find_device sub found = chooseStrongest (found.filter (nameMatch sub))) ∧
    (∀ (sub : String) (found : List ScanDev) (r : ScanDev),
      find_device sub found = some r →
      r ∈ found.filter (nameMatch sub) ∧
      (∀ m ∈ found.filter (nameMatch sub), rssiKeyLt r.rssi m.rssi = false) ∧
      ∃ pre suf, found.filter (nameMatch sub) = pre ++ r :: suf ∧
        ∀ p ∈ pre, rssiKeyLt p.rssi r.rssi = true) ∧
    find_device "boom" [⟨some "UE BOOM a", "A1", Option.none⟩,
      ⟨some "boom b", "A2", some (-70)⟩, ⟨some "Boom c", "A3", some (-40)⟩,
      ⟨some "boomer", "A4", some (-70)⟩] =
      some ⟨some "Boom c", "A3", some (-40)⟩ ∧
    find_device "boom" [⟨some "boom x", "B1", Option.none⟩,
      ⟨some "boom y", "B2", Option.none⟩] =
      some ⟨some "boom x", "B1", Option.none⟩ := by
  refine ⟨fun sub found => find_device_eq sub found, ?_, by decide, by decide⟩
  intro sub found r h
  rw [find_device_eq] at h
  exact ⟨chooseStrongest_mem _ r h, chooseStrongest_max _ r h,
    chooseStrongest_first _ r h⟩

/-- Witness for C5: the maximality part applied at a concrete two-device
scan, discharging the `find_device ... = some r` hypothesis. -/
theorem C5_scan_ranking_witness :
    find_device "boom" [⟨some "boom b", "A2", some (-70)⟩,
      ⟨some "Boom c", "A3", some (-40)⟩] =
      some ⟨some "Boom c", "A3", some (-40)⟩ ∧
    (⟨some "Boom c", "A3", some (-40)⟩ : ScanDev) ∈
      ([⟨some "boom b", "A2", some (-70)⟩,
        ⟨some "Boom c", "A3", some (-40)⟩] : List ScanDev).filter
        (nameMatch "boom") := by
  have h := C5_scan_ranking.2.1 "boom"
    [⟨some "boom b", "A2", some (-70)⟩, ⟨some "Boom c", "A3", some (-40)⟩]
    ⟨some "Boom c", "A3", some (-40)⟩ (by decide)
  exact ⟨by decide, h.1⟩


/-! ## Claims C8 and C9: remember_device -/

theorem dget_eq_none_of_not_mem (d : Entries) (k : String)
    (h : dmem d k = false) : dget d k = Option.none := by
  rw [dmem] at h
  cases hg : dget d k with
  | none => rfl
  | some v =>
    rw [hg] at h
    simp at h

theorem buildDevices_acc_preserved : ∀ (din acc : Entries) (k : String),
    (∀ p ∈ din, p.1 ≠ k) → dget (buildDevices acc din) k = dget acc k := by
  intro din
  induction din with
  | nil => intro acc k _; rfl
  | cons p rest ih =>
    intro acc k hne
    obtain ⟨lbl, ev⟩ := p
    have hlbl : lbl ≠ k := hne (lbl, ev) (by simp)
    have hrest : ∀ q ∈ rest, q.1 ≠ k := fun q hq => hne q (by simp [hq])
    cases ev with
    | none => exact ih acc k hrest
    | str s => exact ih acc k hrest
    | other i b => exact ih acc k hrest
    | dict e =>
      simp only [buildDevices]
      split
      · rw [ih _ k hrest]
        exact dget_dset_of_ne acc _ (Ne.symm hlbl)
      · exact ih acc k hrest

theorem dget_buildDevices : ∀ (din acc : Entries) (k : String),
    wfEntries din = true → dmem acc k = false →
    dget (buildDevices acc din) k =
      (match dget din k with
       | some (PyVal.dict e) =>
         if truthyO (dget e "ble_id") || truthyO (dget e "name_hint") then
           some (PyVal.dict (cleanEntry e))
         else Option.none
       | some PyVal.none => Option.none
       | some (PyVal.str _) => Option.none
       | some (PyVal.other _ _) => Option.none
       | Option.none => Option.none) := by
  intro din
  induction din with
  | nil =>
    intro acc k _ hacc
    simpa [buildDevices, dget] using dget_eq_none_of_not_mem acc k hacc
  | cons p rest ih =>
    intro acc k hwf hacc
    obtain ⟨lbl, ev⟩ := p
    obtain ⟨h1, _, h3⟩ := wf_of_wfEntries_cons hwf
    by_cases hk : lbl = k
    · subst hk
      have hrest : ∀ q ∈ rest, q.1 ≠ lbl :=
        fun q hq => fun hh => (wf_head_ne lbl ev rest q hwf hq) hh.symm
      cases ev with
      | none =>
        rw [show buildDevices acc ((lbl, PyVal.none) :: rest) =
          buildDevices acc rest from rfl]
        rw [buildDevices_acc_preserved rest acc lbl hrest]
        simp [dget, dget_eq_none_of_not_mem acc lbl hacc]
      | str s =>
        rw [show buildDevices acc ((lbl, PyVal.str s) :: rest) =
          buildDevices acc rest from rfl]
        rw [buildDevices_acc_preserved rest acc lbl hrest]
        simp [dget, dget_eq_none_of_not_mem acc lbl hacc]
      | other i b =>
        rw [show buildDevices acc ((lbl, PyVal.other i b) :: rest) =
          buildDevices acc rest from rfl]
        rw [buildDevices_acc_preserved rest acc lbl hrest]
        simp [dget, dget_eq_none_of_not_mem acc lbl hacc]
      | dict e =>
        simp only [buildDevices]
        split
        · rename_i hc
          rw [buildDevices_acc_preserved rest _ lbl hrest]
          rw [dget_dset_self]
          simp [dget, hc]
        · rename_i hc
          rw [buildDevices_acc_preserved rest acc lbl hrest]
          rw [dget_eq_none_of_not_mem acc lbl hacc]
          simp [dget, hc]
    · have hgd : dget ((lbl, ev) :: rest) k = dget rest k := by
        simp [dget, hk]
      rw [hgd]
      cases ev with
      | none => exact ih acc k h3 hacc
      | str s => exact ih acc k h3 hacc
      | other i b => exact ih acc k h3 hacc
      | dict e =>
        simp only [buildDevices]
        split
        · refine ih _ k h3 ?_
          rw [dmem_dset_of_ne acc _ (Ne.symm hk)]
          exact hacc
        · exact ih acc k h3 hacc

theorem legacyFold_preserve (cfg devs : Entries) (dd : Option String)
    (k : String) (e : Entries) (h : dget devs k = some (PyVal.dict e)) :
    ∃ e2, dget (legacyFold cfg devs dd).1 k = some (PyVal.dict e2) ∧
      ∀ q w, dget e q = some w → dget e2 q = some w := by
  simp only [legacyFold]
  split
  · split <;> split
    · exact ⟨e, h, fun q w hq => hq⟩
    · rename_i hdd hne
      by_cases hk : (dd.getD "") = k
      · rw [← hk] at h
        rw [← hk]
        refine ⟨legacyEntry cfg (asEntries (dget devs (dd.getD ""))), dget_dset_self _ _ _, ?_⟩
        intro q w hq
        apply legacyEntry_dget
        rw [h]
        exact hq
      · rw [dget_dset_of_ne devs _ (Ne.symm hk)]
        exact ⟨e, h, fun q w hq => hq⟩
    · exact ⟨e, h, fun q w hq => hq⟩
    · rename_i hdd hne
      by_cases hk : "default" = k
      · rw [← hk] at h
        rw [← hk]
        refine ⟨legacyEntry cfg (asEntries (dget devs "default")), dget_dset_self _ _ _, ?_⟩
        intro q w hq
        apply legacyEntry_dget
        rw [h]
        exact hq
      · rw [dget_dset_of_ne devs _ (Ne.symm hk)]
        exact ⟨e, h, fun q w hq => hq⟩
  · exact ⟨e, h, fun q w hq => hq⟩

theorem remEntry_wf (ble : String) (nh : Option String) :
    wfEntries (remEntry ble nh) = true := by
  cases nh with
  | none => simp [remEntry, wfEntries, dmem, dget, wfB]
  | some s =>
    by_cases hs : s = "" <;>
      simp [remEntry, hs, wfEntries, dmem, dget, wfB]

theorem dget_remEntry_ble (ble : String) (nh : Option String) :
    dget (remEntry ble nh) "ble_id" = some (PyVal.str ble) := by
  simp [remEntry, dget]

theorem dget_remEntry_nh (ble : String) (s : String) (hs : s ≠ "") :
    dget (remEntry ble (some s)) "name_hint" = some (PyVal.str s) := by
  simp [remEntry, hs, dget]

theorem dget_cleanEntry_ble (e : Entries) (v : PyVal)
    (h : dget e "ble_id" = some v) (hv : truthy v = true) :
    dget (cleanEntry e) "ble_id" = some v := by
  simp [cleanEntry, h, hv, dget]

theorem dget_cleanEntry_nh (e : Entries) (v : PyVal)
    (h : dget e "name_hint" = some v) (hv : truthy v = true) :
    dget (cleanEntry e) "name_hint" = some v := by
  cases hb : dget e "ble_id" with
  | none => simp [cleanEntry, hb, h, hv, dget]
  | some vb =>
    by_cases htb : truthy vb = true <;>
      simp [cleanEntry, hb, h, hv, htb, dget]

theorem remStore_devices (cfg : Entries) (label ble : String)
    (nh : Option String) (sd : Bool) :
    dget (remStore cfg label ble nh sd) "devices" =
      some (PyVal.dict (dset (asEntries (dget cfg "devices")) (effLabel label)
        (PyVal.dict (remEntry ble nh)))) := by
  simp only [remStore]
  split
  · rw [dget_dset_of_ne _ _ (by decide), dget_dset_self]
  · rw [dget_dset_self]

theorem remStore_not_legacy (cfg : Entries) (label ble : String)
    (nh : Option String) (sd : Bool) (hb : dmem cfg "ble_id" = false)
    (hn : dmem cfg "name_hint" = false) :
    dmem (remStore cfg label ble nh sd) "ble_id" = false ∧
    dmem (remStore cfg label ble nh sd) "name_hint" = false := by
  simp only [remStore]
  constructor
  · split
    · rw [dmem_dset_of_ne _ _ (by decide), dmem_dset_of_ne _ _ (by decide)]
      exact hb
    · rw [dmem_dset_of_ne _ _ (by decide)]
      exact hb
  · split
    · rw [dmem_dset_of_ne _ _ (by decide), dmem_dset_of_ne _ _ (by decide)]
      exact hn
    · rw [dmem_dset_of_ne _ _ (by decide)]
      exact hn

theorem remStore_wf (cfg : Entries) (label ble : String) (nh : Option String)
    (sd : Bool) (hwf : wfEntries cfg = true) :
    wfEntries (remStore cfg label ble nh sd) = true := by
  have h1 : wfEntries (dset cfg "devices"
      (PyVal.dict (dset (asEntries (dget cfg "devices")) (effLabel label)
        (PyVal.dict (remEntry ble nh))))) = true := by
    apply wfEntries_dset _ _ _ hwf
    simp only [wfB]
    apply wfEntries_dset _ _ _ (wf_asEntries_dget cfg "devices" hwf)
    simpa [wfB] using remEntry_wf ble nh
  simp only [remStore]
  split
  · exact wfEntries_dset _ _ _ h1 rfl
  · exact h1

theorem repairDefault_keep (devs : Entries) (s : String)
    (h : s = "" ∨ dmem devs s = true) :
    repairDefault devs (some s) = some s := by
  rcases h with h | h
  · subst h
    simp [repairDefault]
  · simp [repairDefault, h]

/-- C8 (amended): `remember_device` upserts the device entry under the
effective label — the label stripped of surrounding whitespace when it is
non-empty (even when stripping leaves it empty), and the literal
`"default"` when the label is empty before stripping. For every Python
representable store and non-empty `ble_id`, the persisted config's
`devices` map holds an entry under that label whose `ble_id` is the given
one, and whose `name_hint` is the given one when provided non-empty. (The
original claim, which sends a whitespace-only label to `"default"`, fails:
see `C8_counterexample`.) -/
theorem C8_remember_upsert (cfg : Entries) (label ble : String)
    (nh : Option String) (sd : Bool) (hwf : wfEntries cfg = true)
    (hble : ble ≠ "") :
    ∃ e, dget (cfgDevices (remember_device cfg label ble nh sd))
        (effLabel label) = some (PyVal.dict e) ∧
      dget e "ble_id" = some (PyVal.str ble) ∧
      (∀ s, nh = some s → s ≠ "" → dget e "name_hint" = some (PyVal.str s)) := by
  have htble : truthy (PyVal.str ble) = true := by
    simp [truthy, hble]
  have hdevstore := remStore_devices cfg label ble nh sd
  have hstorewf := remStore_wf cfg label ble nh sd hwf
  have hdevswf : wfEntries (dset (asEntries (dget cfg "devices"))
      (effLabel label) (PyVal.dict (remEntry ble nh))) = true := by
    apply wfEntries_dset _ _ _ (wf_asEntries_dget cfg "devices" hwf)
    simpa [wfB] using remEntry_wf ble nh
  have hdevices : cfgDevices (remember_device cfg label ble nh sd) =
      (migLegacy (remStore cfg label ble nh sd)).1 := by
    rw [remember_device, cfgDevices, migrate_devices_eq]
    rw [show rawEntries (PyVal.dict (remStore cfg label ble nh sd)) =
      remStore cfg label ble nh sd from rfl]
    rfl
  rw [hdevices, migLegacy, hdevstore]
  rw [show asEntries (some (PyVal.dict (dset (asEntries (dget cfg "devices"))
    (effLabel label) (PyVal.dict (remEntry ble nh))))) =
    dset (asEntries (dget cfg "devices")) (effLabel label)
      (PyVal.dict (remEntry ble nh)) from rfl]
  have hbuilt : dget (buildDevices []
      (dset (asEntries (dget cfg "devices")) (effLabel label)
        (PyVal.dict (remEntry ble nh)))) (effLabel label) =
      some (PyVal.dict (cleanEntry (remEntry ble nh))) := by
    rw [dget_buildDevices _ [] _ hdevswf rfl]
    rw [dget_dset_self]
    have hcond : (truthyO (dget (remEntry ble nh) "ble_id") ||
        truthyO (dget (remEntry ble nh) "name_hint")) = true := by
      rw [dget_remEntry_ble]
      simp [truthyO, htble]
    simp only [hcond, if_true]
  obtain ⟨e2, he2, hpres⟩ := legacyFold_preserve (remStore cfg label ble nh sd)
    _ _ (effLabel label) (cleanEntry (remEntry ble nh)) hbuilt
  refine ⟨e2, he2, ?_, ?_⟩
  · apply hpres
    exact dget_cleanEntry_ble _ _ (dget_remEntry_ble ble nh) htble
  · intro s hnh hs
    subst hnh
    apply hpres
    apply dget_cleanEntry_nh
    · exact dget_remEntry_nh ble s hs
    · simp [truthy, hs]

/-- Witness for C8 at an empty store, a label with surrounding whitespace,
and a name hint. -/
theorem C8_remember_upsert_witness :
    ∃ e, dget (cfgDevices (remember_device [] " lbl " "AA:BB" (some "Boom")
        true)) (effLabel " lbl ") = some (PyVal.dict e) ∧
      dget e "ble_id" = some (PyVal.str "AA:BB") ∧
      (∀ s, (some "Boom" : Option String) = some s → s ≠ "" →
        dget e "name_hint" = some (PyVal.str s)) :=
  C8_remember_upsert [] " lbl " "AA:BB" (some "Boom") true rfl (by decide)

/-- C8 counterexample: a whitespace-only label is truthy before stripping,
so it is stored under the empty-string label `""` rather than under the
literal `"default"` — refuting "an empty label (including one that becomes
empty after trimming) is stored under the literal \"default\"". -/
theorem C8_counterexample :
    dmem (cfgDevices (remember_device [] "  " "AA" Option.none false)) "" =
      true ∧
    dmem (cfgDevices (remember_device [] "  " "AA" Option.none false))
      "default" = false ∧
    effLabel "  " = "" := by
  exact ⟨by decide, by decide, by decide⟩

/-- C9: `remember_device` makes the stored entry's label the persisted
`default_device` whenever `set_default` is true or no truthy default
currently exists — in particular with `set_default = false` on a store with
no existing default. Stated for stores as `load_cfg` returns them (well
formed, no legacy flat keys) and a non-empty `ble_id`. -/
theorem C9_remember_default (cfg : Entries) (label ble : String)
    (nh : Option String) (sd : Bool) (hwf : wfEntries cfg = true)
    (hble : ble ≠ "") (hb : dmem cfg "ble_id" = false)
    (hn : dmem cfg "name_hint" = false)
    (hcond : sd = true ∨ truthyO (dget cfg "default_device") = false) :
    cfgDefault (remember_device cfg label ble nh sd) =
      some (PyVal.str (effLabel label)) := by
  have htble : truthy (PyVal.str ble) = true := by
    simp [truthy, hble]
  have hdevswf : wfEntries (dset (asEntries (dget cfg "devices"))
      (effLabel label) (PyVal.dict (remEntry ble nh))) = true := by
    apply wfEntries_dset _ _ _ (wf_asEntries_dget cfg "devices" hwf)
    simpa [wfB] using remEntry_wf ble nh
  have hsetdd : remStore cfg label ble nh sd =
      dset (dset cfg "devices"
        (PyVal.dict (dset (asEntries (dget cfg "devices")) (effLabel label)
          (PyVal.dict (remEntry ble nh)))))
        "default_device" (PyVal.str (effLabel label)) := by
    simp only [remStore]
    rw [if_pos ?_]
    rcases hcond with h | h
    · subst h
      simp
    · rw [dget_dset_of_ne _ _ (by decide), h]
      simp
  have hddstore : dget (remStore cfg label ble nh sd) "default_device" =
      some (PyVal.str (effLabel label)) := by
    rw [hsetdd, dget_dset_self]
  have hnl := remStore_not_legacy cfg label ble nh sd hb hn
  have hdefault : cfgDefault (remember_device cfg label ble nh sd) =
      some (optToVal (repairDefault (migLegacy (remStore cfg label ble nh sd)).1
        (migLegacy (remStore cfg label ble nh sd)).2)) := by
    rw [remember_device, cfgDefault, migrate_default_eq]
    rfl
  rw [hdefault]
  have hml : migLegacy (remStore cfg label ble nh sd) =
      (buildDevices [] (asEntries (dget (remStore cfg label ble nh sd)
        "devices")), strOrNone (dget (remStore cfg label ble nh sd)
        "default_device")) := by
    rw [migLegacy]
    exact legacyFold_skip _ _ _ hnl.1 hnl.2
  rw [hml]
  simp only
  rw [hddstore, remStore_devices]
  rw [show strOrNone (some (PyVal.str (effLabel label))) =
    some (effLabel label) from rfl]
  rw [show asEntries (some (PyVal.dict (dset (asEntries (dget cfg "devices"))
    (effLabel label) (PyVal.dict (remEntry ble nh))))) =
    dset (asEntries (dget cfg "devices")) (effLabel label)
      (PyVal.dict (remEntry ble nh)) from rfl]
  have hkeep : repairDefault (buildDevices []
      (dset (asEntries (dget cfg "devices")) (effLabel label)
        (PyVal.dict (remEntry ble nh)))) (some (effLabel label)) =
      some (effLabel label) := by
    apply repairDefault_keep
    by_cases hlbl : effLabel label = ""
    · exact Or.inl hlbl
    · right
      rw [dmem]
      rw [dget_buildDevices _ [] _ hdevswf rfl]
      rw [dget_dset_self]
      have hcond2 : (truthyO (dget (remEntry ble nh) "ble_id") ||
          truthyO (dget (remEntry ble nh) "name_hint")) = true := by
        rw [dget_remEntry_ble]
        simp [truthyO, htble]
      simp only [hcond2, if_true]
      rfl
  rw [hkeep]
  rfl

/-- Witness for C9: `set_default = false` on an empty store (no existing
default) still makes the remembered entry the default. -/
theorem C9_remember_default_witness :
    cfgDefault (remember_device [] "spk" "AA" Option.none false) =
      some (PyVal.str (effLabel "spk")) :=
  C9_remember_default [] "spk" "AA" Option.none false rfl (by decide) rfl rfl
    (Or.inr rfl)

end Megaboom
